import Mathlib

/-!
Verification of the rust-indelMaP repository: a shallow embedding of the
tree-guided parsimony alignment pipeline (pairwise profile aligner, tree
driver, MSA compositor, branch-length cost buckets, CLI driver) together
with proofs of the specified properties.  `f64` values are modelled by
exact rationals; the type `ExtQ` models values that may be `+∞` in the
dynamic-programming matrices.  The reducibility attribute below lets the
kernel evaluate concrete rational arithmetic in `decide` proofs.
-/

attribute [local semireducible] Rat.add Rat.sub Rat.mul Rat.inv

namespace IndelMaP

/-- Extended rationals: a cost that is either a finite rational or `+∞`
(the DP initialisation uses `+∞` on the forbidden borders). -/
inductive ExtQ where
  | fin (q : ℚ)
  | inf
deriving DecidableEq, Repr

/-- Minimum of two extended rationals. -/
def ExtQ.emin : ExtQ → ExtQ → ExtQ
  | .fin a, .fin b => .fin (min a b)
  | .fin a, .inf => .fin a
  | .inf, b => b

/-- Add a finite rational to an extended rational. -/
def ExtQ.addQ : ExtQ → ℚ → ExtQ
  | .fin a, c => .fin (a + c)
  | .inf, _ => .inf

/-- Cost-bucket lookup
(`find_closest_branch_length`, src/parsimony/src/parsimony_alignment/parsimony_costs/parsimony_costs_model.rs
lines 161-175): scan the adjacent windows of the sorted bucket list, keep
those with `target - window[0] > window[1] - target`, and answer the right
end of the last such window, defaulting to the first bucket.  `windows(2)`
is rendered as `times.zip times.tail`. -/
def find_closest_branch_length (times : List ℚ) (target : ℚ) : ℚ :=
  match ((times.zip times.tail).filter fun w => decide (target - w.1 > w.2 - target)).getLast? with
  | some w => w.2
  | none => times.headD 0

example : find_closest_branch_length [1/10, 7/10] (1/20) = 1/10 := by decide
example : find_closest_branch_length [1/10, 7/10] (41/100) = 7/10 := by decide
example : find_closest_branch_length [1/10, 7/10] (2/5) = 1/10 := by decide
example : find_closest_branch_length [1/10, 7/10] 100 = 7/10 := by decide

/-- Gap-penalty multipliers (`GapMultipliers`, parsimony_costs_model.rs):
`mult_open` and `mult_ext` render the Rust fields `open` and `ext`
(`open` is a Lean keyword). -/
structure GapMultipliers where
  mult_open : ℚ
  mult_ext : ℚ

/-- Per-bucket cost object (`BranchCostsWModel`, parsimony_costs_model.rs):
a byte-to-alphabet-index translation table, the average substitution cost,
the two gap penalties and the substitution cost matrix. -/
structure BranchCostsWModel where
  index : List Int
  avg_cost : ℚ
  gap_open : ℚ
  gap_ext : ℚ
  costs : List (List ℚ)

/-- `generate_costs` (parsimony_costs_model.rs lines 114-152): the
substitution-model scoring generator (external crate) provides, per branch
length, a pair of cost matrix and average cost; each such entry is turned
into a `BranchCostsWModel` whose gap penalties are the multipliers times
the average cost.  The external `model.generate_scorings` output is the
`scorings` argument, and the Rust `HashMap` built by `collect` is kept as
the association list of its entries. -/
def generate_costs (gap_mult : GapMultipliers) (index : List Int)
    (scorings : List (ℚ × (List (List ℚ) × ℚ))) : List (ℚ × BranchCostsWModel) :=
  scorings.map fun s =>
    (s.1,
      { index := index
        avg_cost := s.2.2
        gap_open := gap_mult.mult_open * s.2.2
        gap_ext := gap_mult.mult_ext * s.2.2
        costs := s.2.1 })

/-- A column mapping (`Mapping`, src/indelMaP/src/alignment.rs line 5). -/
def Mapping : Type := List (Option Nat)

/-- Pairwise alignment of two child profiles
(`Alignment`, src/indelMaP/src/alignment.rs lines 7-24). -/
structure Alignment where
  map_x : List (Option Nat)
  map_y : List (Option Nat)
deriving DecidableEq, Repr

/-- `Alignment::empty` (src/indelMaP/src/alignment.rs lines 18-23). -/
def Alignment.empty : Alignment :=
  { map_x := [], map_y := [] }

/-- The part of the mapping invariant on a single side: the `Some` values,
read in column order, are exactly `0, 1, …, n-1`. -/
def covers_exactly (m : List (Option Nat)) (n : Nat) : Prop :=
  m.filterMap id = List.range n

/-- The mapping invariant of an alignment against the two child profile
lengths `nx` and `ny`: equal lengths, no column with two `None` entries,
and each side's `Some` values are a strictly increasing enumeration of
exactly the child profile positions. -/
def mapping_invariant (a : Alignment) (nx ny : Nat) : Prop :=
  a.map_x.length = a.map_y.length ∧
  (∀ p ∈ a.map_x.zip a.map_y, p.1 ≠ none ∨ p.2 ≠ none) ∧
  covers_exactly a.map_x nx ∧ covers_exactly a.map_y ny

/-- Gap-history flag of a profile site (spec §3; the enum `SiteFlag` of
the crate's parsimony_info.rs, which is not part of the sources under
verification). -/
inductive SiteFlag where
  | NoGap
  | GapOpen
  | GapExt
  | GapFixed
deriving DecidableEq, Repr

/-- Is the site a gap site (anything but `NoGap`)?  Gap sites are
traversed by the DP free of charge (the spec's "free pass"); the in-repo
tests (parsimony_alignment_tests.rs, `internal_alignment_*`) pin down that
this applies to `GapOpen` sites as well. -/
def SiteFlag.isGap : SiteFlag → Bool
  | .NoGap => false
  | _ => true

/-- Modelled from the spec (§3, §4.3): one site of a profile, a character
set plus a gap-history flag (`ParsimonySiteInfo` of the crate's
parsimony_info.rs, absent from the sources under verification).
Characters are kept as `Char`. -/
structure ParsimonySiteInfo where
  set : List Char
  flag : SiteFlag
deriving DecidableEq, Repr

instance : Inhabited ParsimonySiteInfo :=
  ⟨⟨[], SiteFlag.NoGap⟩⟩

/-- `ParsimonySiteInfo::new_leaf`: a leaf site carries its character set
and the `NoGap` flag (spec §4.1). -/
def ParsimonySiteInfo.new_leaf (s : List Char) : ParsimonySiteInfo :=
  ⟨s, SiteFlag.NoGap⟩

/-- The DNA alphabet. -/
def dna_alphabet : List Char :=
  ['T', 'C', 'A', 'G']

/-- Modelled from the spec (§4.1): map one DNA residue to its parsimony
character set, honouring the IUPAC ambiguity codes; unknown residues
expand to the full alphabet (`get_parsimony_sets` of the crate's
parsimony_sets.rs, absent from the sources under verification). -/
def dna_parsimony_set (c : Char) : List Char :=
  if c = 'T' then ['T']
  else if c = 'C' then ['C']
  else if c = 'A' then ['A']
  else if c = 'G' then ['G']
  else if c = 'R' then ['A', 'G']
  else if c = 'Y' then ['C', 'T']
  else if c = 'S' then ['G', 'C']
  else if c = 'W' then ['A', 'T']
  else if c = 'K' then ['G', 'T']
  else if c = 'M' then ['A', 'C']
  else if c = 'B' then ['C', 'G', 'T']
  else if c = 'D' then ['A', 'G', 'T']
  else if c = 'H' then ['A', 'C', 'T']
  else if c = 'V' then ['A', 'C', 'G']
  else dna_alphabet

/-- Modelled from the spec (§4.1): the parsimony sets of a whole
sequence. -/
def get_parsimony_sets (seq : List Char) : List (List Char) :=
  seq.map dna_parsimony_set

/-- The branch cost interface (`BranchParsimonyCosts`,
src/parsimony/src/parsimony_alignment/parsimony_costs.rs lines 5-10). -/
structure BranchParsimonyCosts where
  match_cost : Char → Char → ℚ
  gap_open_cost : ℚ
  gap_ext_cost : ℚ
  avg_cost : ℚ

/-- Modelled from the spec (§8 scenarios): the simple cost scheme
(`ParsimonyCostsSimple`, parsimony_costs_simple.rs, absent from the
sources under verification): substituting a character by itself is free,
any other substitution costs `mismatch`; the same costs are used for every
branch length. -/
def ParsimonyCostsSimple (mismatch gap_open gap_ext : ℚ) : BranchParsimonyCosts :=
  { match_cost := fun a b => if a = b then 0 else mismatch
    gap_open_cost := gap_open
    gap_ext_cost := gap_ext
    avg_cost := mismatch }

/-- Traceback direction (`Direction`,
src/parsimony/src/parsimony_alignment/mod.rs lines 17-22). -/
inductive Direction where
  | Matc
  | GapInY
  | GapInX
deriving DecidableEq, Repr

instance : Inhabited Direction :=
  ⟨Direction.Matc⟩

/-- One cell of the DP: the three layer scores (match / gap-in-Y,
consuming X / gap-in-X, consuming Y) and, per layer, the list of
predecessor layers that attain the minimum, kept in the fixed order
`[Matc, GapInY, GapInX]` (spec §4.3: the matrices M, X-gap, Y-gap and the
parallel direction matrix of tie sets). -/
structure DPCell where
  m : ExtQ
  xg : ExtQ
  yg : ExtQ
  tm : List Direction
  tx : List Direction
  ty : List Direction
deriving DecidableEq, Repr

/-- Minimum over a list of scored predecessors together with the tie set
of all predecessors attaining it (spec §4.3: "record every predecessor
whose candidate equals the minimum"). -/
def select (cands : List (Direction × ExtQ)) : ExtQ × List Direction :=
  let v := cands.foldl (fun acc c => acc.emin c.2) ExtQ.inf
  (v, (cands.filter fun c => decide (c.2 = v)).map fun c => c.1)

/-- Smallest element of a list of rationals (`0` when empty; the DP only
evaluates it on non-empty candidate lists). -/
def listMin : List ℚ → ℚ
  | [] => 0
  | h :: t => t.foldl min h

/-- Modelled from the spec (§4.3): the match term of two character sets,
the minimum over the Cartesian product of the two sets and over the
ancestor character of the two branch substitution costs summed
(`CX.C[a,·] + CY.C[·,b]`). -/
def match_term (alpha : List Char) (cx cy : BranchParsimonyCosts)
    (xs ys : List Char) : ℚ :=
  listMin (xs.flatMap fun a => ys.flatMap fun b =>
    alpha.map fun c => cx.match_cost c a + cy.match_cost c b)

/-- Modelled from the spec (§4.3 gap-layer transitions and
initialisation) and calibrated by the in-repo tests
(parsimony_alignment_tests.rs): the cost of consuming site `i-1`
(1-based step `i`) of `info` in that side's gap layer.  A gap-flagged
site is free (the "free pass"; the tests pin down that `GapOpen` sites
are also free).  Otherwise, entering the layer from the match layer or
from the opposite gap layer opens a gap; staying within the layer
extends the gap, except that the first step and a step right after a
free-passed site open a fresh gap (test
`internal_alignment_third_outcome` charges a full gap open after a run
of free-passed sites). -/
def gap_step_cost (info : List ParsimonySiteInfo) (c : BranchParsimonyCosts)
    (i : Nat) (samelayer : Bool) : ℚ :=
  if (info.getD (i-1) default).flag.isGap then 0
  else if samelayer then
    (if 2 ≤ i ∧ ¬(info.getD (i-2) default).flag.isGap then c.gap_ext_cost
     else c.gap_open_cost)
  else c.gap_open_cost

/-- Modelled from the spec (§4.3 initialisation): border value of a gap
layer after skipping the first `i` sites of `info`. -/
def border_gap (info : List ParsimonySiteInfo) (c : BranchParsimonyCosts) : Nat → ℚ
  | 0 => 0
  | i+1 => border_gap info c i + gap_step_cost info c (i+1) true

/-- Modelled from the spec (§4.3): one interior DP cell at matrix
coordinates `(i+1, j+1)` (consuming sites `X[i]` and `Y[j]`) from its
diagonal, upper and left predecessors: every layer minimises over its
three predecessors with the appropriate match or gap charges. -/
def mk_cell (alpha : List Char) (x y : List ParsimonySiteInfo)
    (cx cy : BranchParsimonyCosts) (i j : Nat) (diag up left : DPCell) : DPCell :=
  let mt := match_term alpha cx cy (x.getD i default).set (y.getD j default).set
  let ms := select [(Direction.Matc, diag.m), (Direction.GapInY, diag.xg),
    (Direction.GapInX, diag.yg)]
  let xs := select [(Direction.Matc, up.m.addQ (gap_step_cost x cx (i+1) false)),
    (Direction.GapInY, up.xg.addQ (gap_step_cost x cx (i+1) true)),
    (Direction.GapInX, up.yg.addQ (gap_step_cost x cx (i+1) false))]
  let ys := select [(Direction.Matc, left.m.addQ (gap_step_cost y cy (j+1) false)),
    (Direction.GapInY, left.xg.addQ (gap_step_cost y cy (j+1) false)),
    (Direction.GapInX, left.yg.addQ (gap_step_cost y cy (j+1) true))]
  ⟨ms.1.addQ mt, xs.1, ys.1, ms.2, xs.2, ys.2⟩

/-- Modelled from the spec (§4.3 initialisation): row 0 of the DP:
`M[0,0] = 0`, other match entries `+∞`, the Y-gap layer accumulating the
skip costs of Y's first sites, its tie set staying within the layer. -/
def dp_row0 (y : List ParsimonySiteInfo) (cy : BranchParsimonyCosts) : Nat → DPCell
  | 0 => ⟨.fin 0, .inf, .inf, [], [], []⟩
  | j+1 => ⟨.inf, .inf, .fin (border_gap y cy (j+1)), [], [], [Direction.GapInX]⟩

/-- Modelled from the spec (§4.3): row `i+1` of the DP given row `i`
(`prev`): column 0 is the X-gap border, an interior cell is built by
`mk_cell` from the diagonal and upper cells of the previous row and the
cell to the left. -/
def dp_row_go (alpha : List Char) (x y : List ParsimonySiteInfo)
    (cx cy : BranchParsimonyCosts) (prev : Nat → DPCell) (i : Nat) : Nat → DPCell
  | 0 => ⟨.inf, .fin (border_gap x cx (i+1)), .inf, [], [Direction.GapInY], []⟩
  | j+1 => mk_cell alpha x y cx cy i j (prev j) (prev (j+1))
      (dp_row_go alpha x y cx cy prev i j)

/-- Modelled from the spec (§4.3): the DP cell at matrix coordinates
`(i, j)` (row `i` means the first `i` sites of X are consumed, column `j`
the first `j` of Y), built row by row. -/
def dp_cells (alpha : List Char) (x y : List ParsimonySiteInfo)
    (cx cy : BranchParsimonyCosts) : Nat → Nat → DPCell
  | 0 => dp_row0 y cy
  | i+1 => dp_row_go alpha x y cx cy (dp_cells alpha x y cx cy i) i

/-- Pick one direction from a tie set with the injected RNG
(spec §4.3 traceback: "choose uniformly at random via an injected RNG
function rng(n) → [0,n)"). -/
def pick (r : Nat → Nat) (l : List Direction) : Direction :=
  l.getD (r l.length) Direction.Matc

/-- Modelled from the spec (§4.3 traceback): walk backwards from
`(i, j)` on layer `layer`, emitting the layer's column type and moving to
a tied predecessor chosen by the RNG.  `rng k` is the function used for
the `k`-th RNG call, modelling the statefulness of the injected random
source; `fuel` bounds the walk (a walk from `(i, j)` takes at most
`i + j` steps).  The result is the reversed column list. -/
def traceback_go (cells : Nat → Nat → DPCell) (rng : Nat → Nat → Nat) :
    Nat → Nat → Nat → Nat → Direction → List Direction
  | 0, _, _, _, _ => []
  | fuel+1, k, i, j, layer =>
    if i = 0 ∧ j = 0 then []
    else
      match layer with
      | .Matc =>
        .Matc :: traceback_go cells rng fuel (k+1) (i-1) (j-1) (pick (rng k) (cells i j).tm)
      | .GapInY =>
        .GapInY :: traceback_go cells rng fuel (k+1) (i-1) j (pick (rng k) (cells i j).tx)
      | .GapInX =>
        .GapInX :: traceback_go cells rng fuel (k+1) i (j-1) (pick (rng k) (cells i j).ty)

/-- Convert the forward column list into the pair `(map_x, map_y)`
(spec §3 column mapping): the counters `ci`, `cj` number the consumed
positions consecutively. -/
def dirs_to_maps : List Direction → Nat → Nat → List (Option Nat) × List (Option Nat)
  | [], _, _ => ([], [])
  | .Matc :: rest, ci, cj =>
    let r := dirs_to_maps rest (ci+1) (cj+1)
    (some ci :: r.1, some cj :: r.2)
  | .GapInY :: rest, ci, cj =>
    let r := dirs_to_maps rest (ci+1) cj
    (some ci :: r.1, none :: r.2)
  | .GapInX :: rest, ci, cj =>
    let r := dirs_to_maps rest ci (cj+1)
    (none :: r.1, some cj :: r.2)

/-- Modelled from the spec (§4.3 output profile construction), with the
flag updates of gap columns calibrated by the in-repo test profiles
(`internal_alignment_*`): the consumed site of a gap column keeps its
set; a `NoGap` site becomes `GapOpen`, a gap-flagged site `GapFixed`. -/
def gap_flag_update : SiteFlag → SiteFlag
  | .NoGap => .GapOpen
  | _ => .GapFixed

/-- Modelled from the spec (§4.3 output profile construction): a match
column intersects the two sets when the intersection is non-empty and
unions them otherwise, carrying `NoGap`; a gap column copies the consumed
site's set with its flag updated by `gap_flag_update`. -/
def build_profile (x y : List ParsimonySiteInfo) :
    List Direction → Nat → Nat → List ParsimonySiteInfo
  | [], _, _ => []
  | .Matc :: rest, ci, cj =>
    let xs := (x.getD ci default).set
    let ys := (y.getD cj default).set
    let inter := xs.inter ys
    ⟨if inter = [] then xs.union ys else inter, SiteFlag.NoGap⟩ ::
      build_profile x y rest (ci+1) (cj+1)
  | .GapInY :: rest, ci, cj =>
    ⟨(x.getD ci default).set, gap_flag_update (x.getD ci default).flag⟩ ::
      build_profile x y rest (ci+1) cj
  | .GapInX :: rest, ci, cj =>
    ⟨(y.getD cj default).set, gap_flag_update (y.getD cj default).flag⟩ ::
      build_profile x y rest ci (cj+1)

/-- Modelled from the spec (§4.3): `fill_matrices` followed by
`traceback` (the crate's parsimony_matrices.rs, absent from the sources
under verification): fill the DP, choose the final layer among the
minima of the bottom-right cell, trace back, and assemble the new
profile, the column mapping and the score. -/
def pars_align_core (alpha : List Char) (x_info : List ParsimonySiteInfo)
    (x_scoring : BranchParsimonyCosts) (y_info : List ParsimonySiteInfo)
    (y_scoring : BranchParsimonyCosts) (rng : Nat → Nat → Nat) :
    List ParsimonySiteInfo × Alignment × ExtQ :=
  let cells := dp_cells alpha x_info y_info x_scoring y_scoring
  let fc := cells x_info.length y_info.length
  let fs := select [(Direction.Matc, fc.m), (Direction.GapInY, fc.xg),
    (Direction.GapInX, fc.yg)]
  let start := pick (rng 0) fs.2
  let path := (traceback_go cells rng (x_info.length + y_info.length) 1
    x_info.length y_info.length start).reverse
  let maps := dirs_to_maps path 0 0
  (build_profile x_info y_info path 0 0, ⟨maps.1, maps.2⟩, fs.1)

/-- `pars_align_w_rng`
(src/parsimony/src/parsimony_alignment/mod.rs lines 28-50), with the
alphabet passed explicitly and a deterministic injected RNG as in the
Rust signature (every RNG call uses the same function). -/
def pars_align_w_rng (alpha : List Char) (x_info : List ParsimonySiteInfo)
    (x_scoring : BranchParsimonyCosts) (y_info : List ParsimonySiteInfo)
    (y_scoring : BranchParsimonyCosts) (rng : Nat → Nat) :
    List ParsimonySiteInfo × Alignment × ExtQ :=
  pars_align_core alpha x_info x_scoring y_info y_scoring fun _ => rng

/-- Index of a tree node (`NodeIdx` of the phylo crate, as used
throughout src/): internal or leaf, with a numeric index into the
respective array. -/
inductive NodeIdx where
  | Internal (idx : Nat)
  | Leaf (idx : Nat)
deriving DecidableEq, Repr

/-- An internal node record: its two children and its branch length
(spec §9 tree representation; mod.rs lines 87-95 read `children[0]`,
`children[1]` and `blen`). -/
structure PhyloNode where
  children : NodeIdx × NodeIdx
  blen : ℚ
deriving Repr

instance : Inhabited PhyloNode :=
  ⟨⟨(NodeIdx.Leaf 0, NodeIdx.Leaf 0), 0⟩⟩

/-- A leaf record: its branch length. -/
structure PhyloLeaf where
  blen : ℚ
deriving Repr

instance : Inhabited PhyloLeaf :=
  ⟨⟨0⟩⟩

/-- The phylogenetic tree (`Tree` of the phylo crate; spec §9: arrays of
internal-node and leaf records addressed by tagged indices, a root and a
precomputed postorder list). -/
structure PhyloTree where
  root : NodeIdx
  internals : List PhyloNode
  leaves : List PhyloLeaf
  postorder : List NodeIdx
deriving Repr

/-- A FASTA record (`bio::io::fasta::Record`): id, description and
sequence. -/
structure Record where
  id : String
  desc : Option String
  seq : List Char
deriving DecidableEq, Repr

instance : Inhabited Record :=
  ⟨⟨"", none, []⟩⟩

/-- `PhyloInfo` of the phylo crate: the tree plus the input records in
input order. -/
structure PhyloInfo where
  tree : PhyloTree
  sequences : List Record
deriving Repr

/-- The mutable state of the post-order driver loop
(src/parsimony/src/parsimony_alignment/mod.rs lines 74-77). -/
structure TreeState where
  internal_info : List (List ParsimonySiteInfo)
  leaf_info : List (List ParsimonySiteInfo)
  alignments : List Alignment
  scores : List ExtQ

/-- Child profile and branch length lookup (mod.rs lines 87-95): an
internal child's profile is its stored info, a leaf child's its leaf
info; branch lengths come from the node records. -/
def child_info (tree : PhyloTree) (st : TreeState) :
    NodeIdx → List ParsimonySiteInfo × ℚ
  | .Internal i => (st.internal_info.getD i [], (tree.internals.getD i default).blen)
  | .Leaf i => (st.leaf_info.getD i [], (tree.leaves.getD i default).blen)

/-- One iteration of the post-order loop (mod.rs lines 85-125): a leaf
gets its profile from the parsimony sets of its sequence; an internal
node aligns its two children's profiles with the branch-appropriate costs
and stores profile, alignment and score at its index. -/
def pars_step (alpha : List Char) (scoring : ℚ → BranchParsimonyCosts)
    (info : PhyloInfo) (rngs : Nat → Nat → Nat → Nat)
    (st : TreeState) : NodeIdx → TreeState
  | .Leaf idx =>
    let prof := (get_parsimony_sets (info.sequences.getD idx default).seq).map
      ParsimonySiteInfo.new_leaf
    { st with leaf_info := st.leaf_info.set idx prof }
  | .Internal idx =>
    let nd := info.tree.internals.getD idx default
    let xc := child_info info.tree st nd.children.1
    let yc := child_info info.tree st nd.children.2
    let res := pars_align_core alpha xc.1 (scoring xc.2) yc.1 (scoring yc.2) (rngs idx)
    { st with
        internal_info := st.internal_info.set idx res.1
        alignments := st.alignments.set idx res.2.1
        scores := st.scores.set idx res.2.2 }

/-- `pars_align_on_tree` (mod.rs lines 61-129): initialise empty profile,
alignment and score vectors, then fold the post-order list through
`pars_step`; return the alignments and scores.  `scoring` models the
`ParsimonyCosts` trait object (`get_branch_costs`); `rngs idx k` is the
RNG function used at the `k`-th RNG call of the alignment of internal
node `idx`, so that an arbitrary random source is covered. -/
def pars_align_on_tree (alpha : List Char) (scoring : ℚ → BranchParsimonyCosts)
    (info : PhyloInfo) (rngs : Nat → Nat → Nat → Nat) :
    List Alignment × List ExtQ :=
  let n := info.tree.internals.length
  let init : TreeState :=
    ⟨List.replicate n [], List.replicate info.tree.leaves.length [],
     List.replicate n Alignment.empty, List.replicate n (ExtQ.fin 0)⟩
  let fin := info.tree.postorder.foldl (pars_step alpha scoring info rngs) init
  (fin.alignments, fin.scores)

/-- `sequence_idx` (src/indelMaP/src/alignment.rs lines 26-31): position
of the first record sharing the searched id (the Rust `unwrap` of a
missing id is rendered as the list length). -/
def sequence_idx (sequences : List Record) (search : Record) : Nat :=
  (sequences.findIdx? fun r => r.id == search.id).getD sequences.length

/-- Position of a node in the flat alignment stack
(src/indelMaP/src/alignment.rs lines 65-75: internals use their own
index, leaves are offset by the number of internals). -/
def node_pos (tree : PhyloTree) : NodeIdx → Nat
  | .Internal i => i
  | .Leaf i => tree.internals.length + i

/-- Modelled from the spec (§4.5 and §5: "pre-order walk", "within a
node, left-child (X) is processed before right-child (Y)"): the preorder
node list of the subtree under a node (`tree.preorder_subroot` of the
external phylo crate); `fuel` bounds the recursion depth. -/
def preorder_aux (tree : PhyloTree) : Nat → NodeIdx → List NodeIdx
  | 0, _ => []
  | _+1, .Leaf i => [.Leaf i]
  | fuel+1, .Internal i =>
    .Internal i :: (preorder_aux tree fuel (tree.internals.getD i default).children.1 ++
      preorder_aux tree fuel (tree.internals.getD i default).children.2)

/-- `tree.preorder_subroot(subroot_idx)` with a depth bound sufficient
for every well-formed tree. -/
def preorder_subroot (tree : PhyloTree) (n : NodeIdx) : List NodeIdx :=
  preorder_aux tree (tree.internals.length + 1) n

/-- The compositor state: the per-node alignment stack and the collected
records (src/indelMaP/src/alignment.rs lines 45-53). -/
structure AlState where
  stack : List (List (Option Nat))
  msa : List Record

/-- The padded child mapping (alignment.rs lines 57-64): slot `k` of the
parent stack holding `Some idx` is replaced by `map[idx]`; a `None` slot
stays `None`. -/
def padded_map (cur : List (Option Nat)) (m : List (Option Nat)) :
    List (Option Nat) :=
  cur.map fun site =>
    match site with
    | some index => m.getD index none
    | none => none

/-- One iteration of the compositor loop (alignment.rs lines 54-95): an
internal node passes its padded `map_x` to child 0 and its padded `map_y`
to child 1; a leaf emits its record, slot `k` holding the residue at
`seq[stack[k]]` when the entry is `Some` and the gap byte otherwise. -/
def compile_step (tree : PhyloTree) (sequences : List Record)
    (alignment : List Alignment) (st : AlState) : NodeIdx → AlState
  | .Internal idx =>
    let cur := st.stack.getD idx []
    let al := alignment.getD idx Alignment.empty
    let px := padded_map cur al.map_x
    let py := padded_map cur al.map_y
    let stack1 := st.stack.set (node_pos tree (tree.internals.getD idx default).children.1) px
    let stack2 := stack1.set (node_pos tree (tree.internals.getD idx default).children.2) py
    { st with stack := stack2 }
  | .Leaf idx =>
    let cur := st.stack.getD (tree.internals.length + idx) []
    let sq := sequences.getD idx default
    let srec : Record :=
      ⟨sq.id, sq.desc, cur.map fun site =>
        match site with
        | some index => sq.seq.getD index '-'
        | none => '-'⟩
    { st with msa := st.msa ++ [srec] }

/-- The stack produced by one internal compositor step: child 0's slot
receives the padded `map_x`, child 1's slot the padded `map_y`
(alignment.rs lines 57-75). -/
def step_stack (tree : PhyloTree) (alignment : List Alignment) (st : AlState)
    (i : Nat) (v : List (Option Nat)) : List (List (Option Nat)) :=
  (st.stack.set (node_pos tree (tree.internals.getD i default).children.1)
    (padded_map v (alignment.getD i Alignment.empty).map_x)).set
    (node_pos tree (tree.internals.getD i default).children.2)
    (padded_map v (alignment.getD i Alignment.empty).map_y)

/-- The initial alignment stack (alignment.rs lines 45-49): empty stacks
everywhere, the subroot (an internal node `idx`) getting the identity
stack `[Some 0, …, Some (L-1)]` over its alignment length. -/
def init_stack (tree : PhyloTree) (alignment : List Alignment) (idx : Nat) :
    List (List (Option Nat)) :=
  (List.replicate (tree.internals.length + tree.leaves.length)
    ([] : List (Option Nat))).set idx
    ((List.range (alignment.getD idx Alignment.empty).map_x.length).map some)

/-- `compile_alignment_representation`
(src/indelMaP/src/alignment.rs lines 33-98): resolve the subroot (the
tree root when absent); a leaf subroot immediately returns that leaf's
record; otherwise fold the preorder list through `compile_step` starting
from the initial stack and finally sort the records by their input
position (Rust's stable `sort_by`, rendered by the stable
`List.mergeSort`). -/
def compile_alignment_representation (info : PhyloInfo)
    (alignment : List Alignment) (subroot : Option NodeIdx) : List Record :=
  let tree := info.tree
  let sequences := info.sequences
  let subroot_idx := subroot.getD tree.root
  let order := preorder_subroot tree subroot_idx
  match subroot_idx with
  | .Leaf idx => [sequences.getD idx default]
  | .Internal idx =>
    let fin := order.foldl (compile_step tree sequences alignment)
      ⟨init_stack tree alignment idx, []⟩
    fin.msa.mergeSort fun a b =>
      decide (sequence_idx sequences a ≤ sequence_idx sequences b)

/-- Modelled from the spec (§2: the guide tree is a rooted binary tree
over the input leaves): well-formedness of the subtree under a node,
with an explicit depth bound — every node index is within the tree's
arrays and both children of an internal node are well-formed subtrees
at a smaller depth. -/
inductive WfSub (tree : PhyloTree) : Nat → NodeIdx → Prop where
  | leaf (d i : Nat) (h : i < tree.leaves.length) :
      WfSub tree (d + 1) (NodeIdx.Leaf i)
  | internal (d i : Nat) (h : i < tree.internals.length)
      (h1 : WfSub tree d (tree.internals.getD i default).children.1)
      (h2 : WfSub tree d (tree.internals.getD i default).children.2) :
      WfSub tree (d + 1) (NodeIdx.Internal i)

/-- The leaf index carried by a node, if any. -/
def leaf_idx : NodeIdx → Option Nat
  | NodeIdx.Leaf i => some i
  | NodeIdx.Internal _ => none

/-- The leaf indices of the subtree under a node, in preorder. -/
def subtree_leaves (tree : PhyloTree) (fuel : Nat) (n : NodeIdx) : List Nat :=
  (preorder_aux tree fuel n).filterMap leaf_idx

/-- The per-leaf output contract of the compositor: the record emitted
for input sequence `l` keeps that sequence's id and description, has
the ambient padded length, and its gap-stripped residues are exactly
the input sequence. -/
def LeafRec (sequences : List Record) (padlen : Nat) (l : Nat) (r : Record) : Prop :=
  r.id = (sequences.getD l default).id ∧
  r.desc = (sequences.getD l default).desc ∧
  r.seq.length = padlen ∧
  r.seq.filter (fun c => decide (c ≠ '-')) = (sequences.getD l default).seq

/-- The parsed CLI arguments (src/indelMaP/src/cli.rs). -/
structure Cli where
  seq_file : String
  tree_file : String
  output_msa_file : Option String
  model : String
  model_params : List ℚ
  go : ℚ
  ge : ℚ
  categories : Nat

/-- The observable outcome of a `main` run: the process exit code,
whether an output MSA file was written, and whether an error was sent to
the error log. -/
structure MainResult where
  exit_code : Nat
  wrote_output : Bool
  logged_error : Bool
deriving DecidableEq, Repr

/-- `main` (src/indelMaP/src/main.rs lines 92-153), with the external
effects abstracted into arguments: `cli` is the result of
`Cli::try_parse`, `setup` of `setup_phylogenetic_info`, `align` of the
model construction plus `pars_align_on_tree` call, and `write` of
`write_sequences_to_file`.  A `main` that returns `Err` (through the `?`
operators) exits with the non-zero failure code, rendered as 1; the
`Err` arm of the `setup` match logs the error and returns `Ok(())` —
exit code 0 — without writing any output. -/
def main_model (cli : Except String Cli)
    (setup : Cli → Except String PhyloInfo)
    (align : Cli → PhyloInfo → Except String (List Alignment × List ExtQ))
    (write : List Record → Except String Unit) : MainResult :=
  match cli with
  | .error _ => ⟨1, false, false⟩
  | .ok c =>
    match setup c with
    | .error _ => ⟨0, false, true⟩
    | .ok info =>
      match align c info with
      | .error _ => ⟨1, false, false⟩
      | .ok res =>
        match write (compile_alignment_representation info res.1 none) with
        | .error _ => ⟨1, false, false⟩
        | .ok _ => ⟨0, true, false⟩

/-- Unfolding step of the bucket lookup on a sorted list: the first
window decides between the head bucket and the recursive lookup. -/
theorem find_closest_cons (a b : ℚ) (rest : List ℚ) (t : ℚ)
    (hs : List.Sorted (· < ·) (a :: b :: rest)) :
    find_closest_branch_length (a :: b :: rest) t =
      (if a + b < 2 * t then find_closest_branch_length (b :: rest) t else a) := by
  have hzip : (a :: b :: rest).zip (a :: b :: rest).tail =
      (a, b) :: (b :: rest).zip rest := rfl
  by_cases hP : t - a > b - t
  · have hP2 : a + b < 2 * t := by linarith
    simp only [find_closest_branch_length, hzip, List.filter_cons, decide_eq_true_eq,
      if_pos hP, hP2, if_true, List.getLast?_cons]
    cases hlast : (((b :: rest).zip rest).filter fun w =>
        decide (t - w.1 > w.2 - t)).getLast? with
    | none => simp [hlast]
    | some w => simp [hlast]
  · have hP2 : ¬ a + b < 2 * t := by
      intro h
      exact hP (by linarith)
    have hall : (((b :: rest).zip rest).filter fun w =>
        decide (t - w.1 > w.2 - t)) = [] := by
      rw [List.filter_eq_nil_iff]
      intro w hw
      obtain ⟨hw1, hw2⟩ := List.of_mem_zip (a := w.1) (b := w.2) hw
      have hb1 : b ≤ w.1 := by
        rcases List.mem_cons.mp hw1 with h | h
        · exact le_of_eq h.symm
        · exact le_of_lt (List.rel_of_sorted_cons hs.of_cons w.1 h)
      have hb2 : b < w.2 := List.rel_of_sorted_cons hs.of_cons w.2 hw2
      have hab : a < b := List.rel_of_sorted_cons hs b (List.mem_cons_self b rest)
      simp only [decide_eq_true_eq]
      intro hgt
      have : a + b < 2 * t := by linarith
      exact hP2 this
    simp [find_closest_branch_length, hzip, List.filter_cons, hP, hall, hP2]

/-- The bucket lookup on a sorted non-empty list answers an element at
minimal distance to the target, ties resolved towards the smaller
bucket. -/
theorem find_closest_min (times : List ℚ) (t : ℚ)
    (hs : List.Sorted (· < ·) times) (hne : times ≠ []) :
    find_closest_branch_length times t ∈ times ∧
      ∀ τ ∈ times, |t - find_closest_branch_length times t| ≤ |t - τ| ∧
        (|t - find_closest_branch_length times t| = |t - τ| →
          find_closest_branch_length times t ≤ τ) := by
  induction times with
  | nil => exact absurd rfl hne
  | cons a l ih =>
    cases l with
    | nil =>
      have hval : find_closest_branch_length [a] t = a := by
        simp [find_closest_branch_length]
      refine ⟨by simp [hval], ?_⟩
      intro τ hτ
      have : τ = a := by simpa using hτ
      subst this
      exact ⟨by rw [hval], fun _ => by rw [hval]⟩
    | cons b rest =>
      rw [find_closest_cons a b rest t hs]
      have hab : a < b := List.rel_of_sorted_cons hs b (List.mem_cons_self b rest)
      by_cases hmid : a + b < 2 * t
      · rw [if_pos hmid]
        obtain ⟨hmem, hmin⟩ := ih hs.of_cons (by simp)
        refine ⟨List.mem_cons_of_mem a hmem, ?_⟩
        intro τ hτ
        rcases List.mem_cons.mp hτ with h | h
        · subst h
          have hba : |t - b| < |t - τ| := by
            have hta : 0 < t - τ := by linarith
            rw [abs_of_pos hta, abs_sub_lt_iff]
            constructor <;> linarith
          have hrb := (hmin b (List.mem_cons_self b rest)).1
          refine ⟨le_of_lt (lt_of_le_of_lt hrb hba), ?_⟩
          intro heq
          exact absurd heq (ne_of_lt (lt_of_le_of_lt hrb hba))
        · exact hmin τ h
      · rw [if_neg hmid]
        refine ⟨List.mem_cons_self a (b :: rest), ?_⟩
        intro τ hτ
        rcases List.mem_cons.mp hτ with h | h
        · subst h
          exact ⟨le_refl _, fun _ => le_refl _⟩
        · have haτ : a < τ := List.rel_of_sorted_cons hs τ h
          have hbτ : b ≤ τ := by
            rcases List.mem_cons.mp h with h2 | h2
            · exact le_of_eq h2.symm
            · exact le_of_lt (List.rel_of_sorted_cons hs.of_cons τ h2)
          have h1 : t - τ ≤ |t - τ| := le_abs_self _
          have h2 : τ - t ≤ |t - τ| := by
            rw [abs_sub_comm]
            exact le_abs_self _
          refine ⟨?_, fun _ => le_of_lt haτ⟩
          rw [abs_sub_le_iff]
          constructor <;> linarith

/-- Claim C4: for every query branch length and every non-empty sorted
bucket list, the lookup answers the bucket value nearest to the query; a
tie at the exact midpoint of two adjacent buckets resolves to the smaller
bucket (every tie resolves to the smaller of the tied buckets); a query
beyond the largest bucket returns the largest bucket.  In particular, on
the buckets [0.1, 0.7] the queries 0.05, 0.1, 0.15, 0.2, 0.39 return 0.1
and the queries 0.41, 0.8, 100.0 return 0.7. -/
theorem C4_find_closest_nearest (times : List ℚ) (t : ℚ)
    (hs : List.Sorted (· < ·) times) (hne : times ≠ []) :
    (find_closest_branch_length times t ∈ times ∧
      (∀ τ ∈ times, |t - find_closest_branch_length times t| ≤ |t - τ|) ∧
      (∀ τ ∈ times, |t - find_closest_branch_length times t| = |t - τ| →
        find_closest_branch_length times t ≤ τ) ∧
      ((∀ τ ∈ times, τ ≤ t) → ∀ τ ∈ times, τ ≤ find_closest_branch_length times t)) ∧
    (find_closest_branch_length [1/10, 7/10] (1/20) = 1/10 ∧
      find_closest_branch_length [1/10, 7/10] (1/10) = 1/10 ∧
      find_closest_branch_length [1/10, 7/10] (3/20) = 1/10 ∧
      find_closest_branch_length [1/10, 7/10] (1/5) = 1/10 ∧
      find_closest_branch_length [1/10, 7/10] (39/100) = 1/10 ∧
      find_closest_branch_length [1/10, 7/10] (41/100) = 7/10 ∧
      find_closest_branch_length [1/10, 7/10] (4/5) = 7/10 ∧
      find_closest_branch_length [1/10, 7/10] 100 = 7/10) := by
  obtain ⟨hmem, hmin⟩ := find_closest_min times t hs hne
  refine ⟨⟨hmem, fun τ hτ => (hmin τ hτ).1, fun τ hτ => (hmin τ hτ).2, ?_⟩, by decide⟩
  intro hbey τ hτ
  have h1 := (hmin τ hτ).1
  have h2 : find_closest_branch_length times t ≤ t := hbey _ hmem
  have h3 : τ ≤ t := hbey τ hτ
  rw [abs_of_nonneg (by linarith), abs_of_nonneg (by linarith)] at h1
  linarith

/-- Witness for C4 at the sorted bucket list [1, 2] and query 0. -/
theorem C4_witness :
    List.Sorted (fun a b : ℚ => a < b) [1, 2] ∧ ([(1 : ℚ), 2] ≠ []) ∧
    ((find_closest_branch_length [1, 2] 0 ∈ [(1 : ℚ), 2] ∧
      (∀ τ ∈ [(1 : ℚ), 2], |0 - find_closest_branch_length [1, 2] 0| ≤ |0 - τ|) ∧
      (∀ τ ∈ [(1 : ℚ), 2], |0 - find_closest_branch_length [1, 2] 0| = |0 - τ| →
        find_closest_branch_length [1, 2] 0 ≤ τ) ∧
      ((∀ τ ∈ [(1 : ℚ), 2], τ ≤ 0) → ∀ τ ∈ [(1 : ℚ), 2],
        τ ≤ find_closest_branch_length [1, 2] 0)) ∧
    (find_closest_branch_length [1/10, 7/10] (1/20) = 1/10 ∧
      find_closest_branch_length [1/10, 7/10] (1/10) = 1/10 ∧
      find_closest_branch_length [1/10, 7/10] (3/20) = 1/10 ∧
      find_closest_branch_length [1/10, 7/10] (1/5) = 1/10 ∧
      find_closest_branch_length [1/10, 7/10] (39/100) = 1/10 ∧
      find_closest_branch_length [1/10, 7/10] (41/100) = 7/10 ∧
      find_closest_branch_length [1/10, 7/10] (4/5) = 7/10 ∧
      find_closest_branch_length [1/10, 7/10] 100 = 7/10)) :=
  ⟨by decide, by decide, C4_find_closest_nearest [1, 2] 0 (by decide) (by decide)⟩

/-- Claim C5 counterexample: at the exact midpoint 0.4 of the buckets
0.1 and 0.7 the lookup answers 0.1, not 0.7 as the claim states (the
strict window inequality fails at the exact midpoint). -/
theorem C5_counterexample :
    find_closest_branch_length [1/10, 7/10] (2/5) = 1/10 ∧
    ¬ find_closest_branch_length [1/10, 7/10] (2/5) = 7/10 := by decide

/-- Claim C5 (amended): when the query is exactly the midpoint of two
adjacent buckets, the lookup returns the smaller of the two buckets; in
particular, for buckets [0.1, 0.7] the query 0.4 returns 0.1. -/
theorem C5_midpoint_smaller (a b : ℚ) (hab : a < b) :
    find_closest_branch_length [a, b] ((a + b) / 2) = a ∧
    find_closest_branch_length [1/10, 7/10] (2/5) = 1/10 := by
  constructor
  · have hP : ¬((a + b) / 2 - a > b - (a + b) / 2) := by
      intro h
      linarith
    simp [find_closest_branch_length, List.filter_cons, hP]
  · decide

/-- Witness for C5 (amended) at the buckets 1 and 2. -/
theorem C5_witness :
    ((1 : ℚ) < 2) ∧
    (find_closest_branch_length [1, 2] ((1 + 2) / 2) = 1 ∧
      find_closest_branch_length [1/10, 7/10] (2/5) = 1/10) :=
  ⟨by decide, C5_midpoint_smaller 1 2 (by decide)⟩

/-- `getD` of a `set` list at the written position. -/
theorem getD_set_self {α : Type} (l : List α) (n : Nat) (a d : α)
    (h : n < l.length) : (l.set n a).getD n d = a := by
  rw [List.getD_eq_getElem _ _ (by simpa using h), List.getElem_set_self]

/-- `getD` of a `set` list away from the written position. -/
theorem getD_set_ne {α : Type} (l : List α) (m n : Nat) (a d : α)
    (h : m ≠ n) : (l.set m a).getD n d = l.getD n d := by
  by_cases hn : n < l.length
  · rw [List.getD_eq_getElem _ _ (by simpa using hn), List.getD_eq_getElem _ _ hn,
      List.getElem_set_ne h]
  · rw [List.getD_eq_getElem?_getD, List.getD_eq_getElem?_getD,
      List.getElem?_eq_none (by simpa using le_of_not_lt hn),
      List.getElem?_eq_none (by simpa using le_of_not_lt hn)]

/-- `getD` of a mapped list at an in-range position. -/
theorem getD_map_lt {α β : Type} (f : α → β) (l : List α) (k : Nat)
    (d : β) (d2 : α) (h : k < l.length) :
    (l.map f).getD k d = f (l.getD k d2) := by
  rw [List.getD_eq_getElem _ _ (by simpa using h), List.getD_eq_getElem _ _ h,
    List.getElem_map]

/-- Claim C9: every bucket entry of a constructed cost provider stores a
gap-open cost equal to the gap-open multiplier times that bucket's
average substitution cost, and a gap-extend cost equal to the gap-extend
multiplier times the same average cost. -/
theorem C9_generate_costs_gap_costs (gap_mult : GapMultipliers)
    (index : List Int) (scorings : List (ℚ × (List (List ℚ) × ℚ)))
    (p : ℚ × BranchCostsWModel)
    (hp : p ∈ generate_costs gap_mult index scorings) :
    p.2.gap_open = gap_mult.mult_open * p.2.avg_cost ∧
    p.2.gap_ext = gap_mult.mult_ext * p.2.avg_cost := by
  simp only [generate_costs, List.mem_map] at hp
  obtain ⟨s, _, rfl⟩ := hp
  exact ⟨rfl, rfl⟩

/-- Witness for C9 on a one-bucket provider. -/
theorem C9_witness :
    ((3/2, ⟨[], 4, 5/2 * 4, 1/2 * 4, []⟩) ∈
      generate_costs ⟨5/2, 1/2⟩ [] [(3/2, ([], 4))]) ∧
    ((3/2, (⟨[], 4, 5/2 * 4, 1/2 * 4, []⟩ : BranchCostsWModel)).2.gap_open =
        (⟨5/2, 1/2⟩ : GapMultipliers).mult_open * 4 ∧
      (3/2, (⟨[], 4, 5/2 * 4, 1/2 * 4, []⟩ : BranchCostsWModel)).2.gap_ext =
        (⟨5/2, 1/2⟩ : GapMultipliers).mult_ext * 4) :=
  ⟨List.mem_singleton.mpr rfl,
    C9_generate_costs_gap_costs ⟨5/2, 1/2⟩ [] [(3/2, ([], 4))] _
      (List.mem_singleton.mpr rfl)⟩

/-- Claim C7: a failure of loading the input data (`setup` answering an
error) makes `main` log the error, write no output MSA file and exit
with code 0, while a command-line parse failure exits with a non-zero
code (and also writes nothing). -/
theorem C7_main_error_handling (c : Cli) (e : String)
    (setup : Cli → Except String PhyloInfo)
    (align : Cli → PhyloInfo → Except String (List Alignment × List ExtQ))
    (write : List Record → Except String Unit)
    (hs : setup c = Except.error e) :
    ((main_model (Except.ok c) setup align write).exit_code = 0 ∧
      (main_model (Except.ok c) setup align write).wrote_output = false ∧
      (main_model (Except.ok c) setup align write).logged_error = true) ∧
    (∀ e2 : String,
      (main_model (Except.error e2) setup align write).exit_code ≠ 0 ∧
      (main_model (Except.error e2) setup align write).wrote_output = false) := by
  refine ⟨?_, ?_⟩
  · simp [main_model, hs]
  · intro e2
    simp [main_model]

/-- Witness for C7 with a concrete failing setup. -/
theorem C7_witness :
    ((fun _ : Cli => (Except.error "bad newick" : Except String PhyloInfo))
        ⟨"s", "t", none, "JC69", [], 5/2, 1/2, 4⟩ = Except.error "bad newick") ∧
    (((main_model (Except.ok ⟨"s", "t", none, "JC69", [], 5/2, 1/2, 4⟩)
          (fun _ => Except.error "bad newick")
          (fun _ _ => Except.error "no model") (fun _ => Except.ok ())).exit_code = 0 ∧
      (main_model (Except.ok ⟨"s", "t", none, "JC69", [], 5/2, 1/2, 4⟩)
          (fun _ => Except.error "bad newick")
          (fun _ _ => Except.error "no model") (fun _ => Except.ok ())).wrote_output = false ∧
      (main_model (Except.ok ⟨"s", "t", none, "JC69", [], 5/2, 1/2, 4⟩)
          (fun _ => Except.error "bad newick")
          (fun _ _ => Except.error "no model") (fun _ => Except.ok ())).logged_error = true) ∧
    (∀ e2 : String,
      (main_model (Except.error e2)
          (fun _ => Except.error "bad newick")
          (fun _ _ => Except.error "no model") (fun _ => Except.ok ())).exit_code ≠ 0 ∧
      (main_model (Except.error e2)
          (fun _ => Except.error "bad newick")
          (fun _ _ => Except.error "no model") (fun _ => Except.ok ())).wrote_output = false)) :=
  ⟨rfl, C7_main_error_handling ⟨"s", "t", none, "JC69", [], 5/2, 1/2, 4⟩
    "bad newick" (fun _ => Except.error "bad newick")
    (fun _ _ => Except.error "no model") (fun _ => Except.ok ()) rfl⟩

/-- Claim C10: a leaf subroot makes `compile_alignment_representation`
return exactly that leaf's input record (no gap characters inserted),
and the supplied alignment vector is never consulted. -/
theorem C10_leaf_subroot (info : PhyloInfo) (al al2 : List Alignment)
    (idx : Nat) (h : idx < info.sequences.length) :
    compile_alignment_representation info al (some (NodeIdx.Leaf idx)) =
      [info.sequences.get ⟨idx, h⟩] ∧
    compile_alignment_representation info al (some (NodeIdx.Leaf idx)) =
      compile_alignment_representation info al2 (some (NodeIdx.Leaf idx)) := by
  constructor
  · show [info.sequences.getD idx default] = _
    rw [List.getD_eq_getElem _ _ h]
    rfl
  · rfl

/-- Witness for C10 on a one-leaf tree. -/
theorem C10_witness :
    0 < [(⟨"A", none, ['A', 'C']⟩ : Record)].length ∧
    (compile_alignment_representation
        ⟨⟨NodeIdx.Leaf 0, [], [⟨1⟩], [NodeIdx.Leaf 0]⟩, [⟨"A", none, ['A', 'C']⟩]⟩
        [⟨[some 0], [none]⟩] (some (NodeIdx.Leaf 0)) =
      [List.get [(⟨"A", none, ['A', 'C']⟩ : Record)] ⟨0, by decide⟩] ∧
    compile_alignment_representation
        ⟨⟨NodeIdx.Leaf 0, [], [⟨1⟩], [NodeIdx.Leaf 0]⟩, [⟨"A", none, ['A', 'C']⟩]⟩
        [⟨[some 0], [none]⟩] (some (NodeIdx.Leaf 0)) =
      compile_alignment_representation
        ⟨⟨NodeIdx.Leaf 0, [], [⟨1⟩], [NodeIdx.Leaf 0]⟩, [⟨"A", none, ['A', 'C']⟩]⟩
        [] (some (NodeIdx.Leaf 0))) :=
  ⟨by decide,
    C10_leaf_subroot ⟨⟨NodeIdx.Leaf 0, [], [⟨1⟩], [NodeIdx.Leaf 0]⟩,
      [⟨"A", none, ['A', 'C']⟩]⟩ [⟨[some 0], [none]⟩] [] 0 (by decide)⟩

/-- Claim C3: started at an internal subroot whose alignment has length
L, the compositor initialises that node's stack to
[Some 0, Some 1, …, Some (L-1)]; and at every internal node each child
receives a stack of the same length as the node's stack whose slot k
holds map_x[idx] (child 0) resp. map_y[idx] (child 1) when the node's
stack holds Some idx at k, and None when it holds None. -/
theorem C3_compile_stack_propagation (tree : PhyloTree)
    (sequences : List Record) (alignment : List Alignment) (st : AlState)
    (idx : Nat) (hidx : idx < tree.internals.length)
    (hc12 : node_pos tree (tree.internals.getD idx default).children.1 ≠
      node_pos tree (tree.internals.getD idx default).children.2)
    (hp1 : node_pos tree (tree.internals.getD idx default).children.1 < st.stack.length)
    (hp2 : node_pos tree (tree.internals.getD idx default).children.2 < st.stack.length) :
    ((init_stack tree alignment idx).getD idx [] =
      (List.range (alignment.getD idx Alignment.empty).map_x.length).map some) ∧
    ((compile_step tree sequences alignment st (NodeIdx.Internal idx)).stack.getD
        (node_pos tree (tree.internals.getD idx default).children.1) [] =
      padded_map (st.stack.getD idx []) (alignment.getD idx Alignment.empty).map_x) ∧
    ((compile_step tree sequences alignment st (NodeIdx.Internal idx)).stack.getD
        (node_pos tree (tree.internals.getD idx default).children.2) [] =
      padded_map (st.stack.getD idx []) (alignment.getD idx Alignment.empty).map_y) ∧
    (∀ m : List (Option Nat),
      (padded_map (st.stack.getD idx []) m).length = (st.stack.getD idx []).length ∧
      ∀ k < (st.stack.getD idx []).length,
        (padded_map (st.stack.getD idx []) m).getD k none =
          (match (st.stack.getD idx []).getD k none with
           | some i => m.getD i none
           | none => none)) := by
  refine ⟨?_, ?_, ?_, ?_⟩
  · unfold init_stack
    exact getD_set_self _ idx _ [] (by simpa using lt_of_lt_of_le hidx (Nat.le_add_right _ _))
  · show ((st.stack.set (node_pos tree (tree.internals.getD idx default).children.1)
        (padded_map (st.stack.getD idx []) (alignment.getD idx Alignment.empty).map_x)).set
        (node_pos tree (tree.internals.getD idx default).children.2)
        (padded_map (st.stack.getD idx []) (alignment.getD idx Alignment.empty).map_y)).getD
        (node_pos tree (tree.internals.getD idx default).children.1) [] = _
    rw [getD_set_ne _ _ _ _ _ (Ne.symm hc12), getD_set_self _ _ _ _ hp1]
  · show ((st.stack.set (node_pos tree (tree.internals.getD idx default).children.1)
        (padded_map (st.stack.getD idx []) (alignment.getD idx Alignment.empty).map_x)).set
        (node_pos tree (tree.internals.getD idx default).children.2)
        (padded_map (st.stack.getD idx []) (alignment.getD idx Alignment.empty).map_y)).getD
        (node_pos tree (tree.internals.getD idx default).children.2) [] = _
    rw [getD_set_self _ _ _ _ (by simpa using hp2)]
  · intro m
    refine ⟨by simp [padded_map], ?_⟩
    intro k hk
    unfold padded_map
    rw [getD_map_lt _ _ k none none hk]

/-- Witness for C3 on a one-internal, two-leaf tree. -/
theorem C3_witness :
    (0 < ([⟨(NodeIdx.Leaf 0, NodeIdx.Leaf 1), 1⟩] : List PhyloNode).length) ∧
    (node_pos ⟨NodeIdx.Internal 0, [⟨(NodeIdx.Leaf 0, NodeIdx.Leaf 1), 1⟩], [⟨1⟩, ⟨1⟩],
        [NodeIdx.Internal 0, NodeIdx.Leaf 0, NodeIdx.Leaf 1]⟩
        (([⟨(NodeIdx.Leaf 0, NodeIdx.Leaf 1), 1⟩] : List PhyloNode).getD 0 default).children.1 ≠
      node_pos ⟨NodeIdx.Internal 0, [⟨(NodeIdx.Leaf 0, NodeIdx.Leaf 1), 1⟩], [⟨1⟩, ⟨1⟩],
        [NodeIdx.Internal 0, NodeIdx.Leaf 0, NodeIdx.Leaf 1]⟩
        (([⟨(NodeIdx.Leaf 0, NodeIdx.Leaf 1), 1⟩] : List PhyloNode).getD 0 default).children.2) ∧
    ((init_stack ⟨NodeIdx.Internal 0, [⟨(NodeIdx.Leaf 0, NodeIdx.Leaf 1), 1⟩], [⟨1⟩, ⟨1⟩],
        [NodeIdx.Internal 0, NodeIdx.Leaf 0, NodeIdx.Leaf 1]⟩
        [⟨[some 0, none], [none, some 0]⟩] 0).getD 0 [] =
      (List.range (([⟨[some 0, none], [none, some 0]⟩] : List Alignment).getD 0
        Alignment.empty).map_x.length).map some) :=
  ⟨by decide, by decide,
    (C3_compile_stack_propagation
      ⟨NodeIdx.Internal 0, [⟨(NodeIdx.Leaf 0, NodeIdx.Leaf 1), 1⟩], [⟨1⟩, ⟨1⟩],
        [NodeIdx.Internal 0, NodeIdx.Leaf 0, NodeIdx.Leaf 1]⟩
      [⟨"A", none, ['A']⟩, ⟨"B", none, ['C']⟩]
      [⟨[some 0, none], [none, some 0]⟩]
      ⟨[[some 0, some 1], [], []], []⟩ 0 (by decide) (by decide) (by decide)
      (by decide)).1⟩

set_option maxRecDepth 4000 in
/-- Claim C8: aligning the two leaf profiles of the sequences A = AACT
and B = AC with simple costs (mismatch 1.0, gap open 2.0, gap extension
0.5, equal branch lengths) under an injected RNG that always picks the
last tied option returns score 3.5, map_x = [0, 1, 2, 3] and
map_y = [0, 1, None, None]
(the in-repo test `align_two_first_outcome`,
src/parsimony/src/parsimony_alignment/parsimony_alignment_tests.rs
lines 20-51). -/
theorem C8_align_two_last_outcome :
    (pars_align_w_rng dna_alphabet
      ((get_parsimony_sets ['A', 'A', 'C', 'T']).map ParsimonySiteInfo.new_leaf)
      (ParsimonyCostsSimple 1 2 (1/2))
      ((get_parsimony_sets ['A', 'C']).map ParsimonySiteInfo.new_leaf)
      (ParsimonyCostsSimple 1 2 (1/2))
      (fun l => l - 1)).2 =
    (⟨[some 0, some 1, some 2, some 3], [some 0, some 1, none, none]⟩,
      ExtQ.fin (7/2)) := by decide

set_option maxRecDepth 4000 in
/-- The companion second outcome (spec §8 scenario B, in-repo test
`align_two_second_outcome`): the RNG that always picks the first tied
option yields the same score with map_y = [0, None, None, 1]. -/
theorem align_two_first_rng_outcome :
    (pars_align_w_rng dna_alphabet
      ((get_parsimony_sets ['A', 'A', 'C', 'T']).map ParsimonySiteInfo.new_leaf)
      (ParsimonyCostsSimple 1 2 (1/2))
      ((get_parsimony_sets ['A', 'C']).map ParsimonySiteInfo.new_leaf)
      (ParsimonyCostsSimple 1 2 (1/2))
      (fun _ => 0)).2 =
    (⟨[some 0, some 1, some 2, some 3], [some 0, none, none, some 1]⟩,
      ExtQ.fin (7/2)) := by decide

/-- Does a column type consume a position of X? -/
def consumesX : Direction → Bool
  | .GapInX => false
  | _ => true

/-- Does a column type consume a position of Y? -/
def consumesY : Direction → Bool
  | .GapInY => false
  | _ => true

/-- The score of one layer of a DP cell. -/
def layer_val (c : DPCell) : Direction → ExtQ
  | .Matc => c.m
  | .GapInY => c.xg
  | .GapInX => c.yg

/-- The tie set of one layer of a DP cell. -/
def layer_ties (c : DPCell) : Direction → List Direction
  | .Matc => c.tm
  | .GapInY => c.tx
  | .GapInX => c.ty

/-- Both maps built from a column list have the list's length. -/
theorem dirs_to_maps_length (p : List Direction) : ∀ a b : Nat,
    (dirs_to_maps p a b).1.length = p.length ∧
    (dirs_to_maps p a b).2.length = p.length := by
  induction p with
  | nil => intro a b; simp [dirs_to_maps]
  | cons d rest ih =>
    intro a b
    cases d <;> simp [dirs_to_maps, (ih _ _).1, (ih _ _).2]

/-- The `Some` values of the maps built from a column list enumerate the
consumed positions consecutively from the start counters. -/
theorem dirs_to_maps_covers (p : List Direction) : ∀ a b : Nat,
    (dirs_to_maps p a b).1.filterMap id = List.range' a (p.countP consumesX) ∧
    (dirs_to_maps p a b).2.filterMap id = List.range' b (p.countP consumesY) := by
  induction p with
  | nil => intro a b; simp [dirs_to_maps]
  | cons d rest ih =>
    intro a b
    cases d <;>
      simp [dirs_to_maps, List.countP_cons, consumesX, consumesY, List.filterMap_cons,
        (ih _ _).1, (ih _ _).2, List.range'_succ]

/-- No column built from a column list has `None` on both sides. -/
theorem dirs_to_maps_no_both_none (p : List Direction) : ∀ a b : Nat,
    ∀ q ∈ (dirs_to_maps p a b).1.zip (dirs_to_maps p a b).2,
      q.1 ≠ none ∨ q.2 ≠ none := by
  induction p with
  | nil => intro a b; simp [dirs_to_maps]
  | cons d rest ih =>
    intro a b q hq
    cases d <;>
      · simp only [dirs_to_maps, List.zip_cons_cons, List.mem_cons] at hq
        rcases hq with h | h
        · subst h; simp
        · exact ih _ _ q h

/-- The merged profile has one site per column. -/
theorem build_profile_length (x y : List ParsimonySiteInfo)
    (p : List Direction) : ∀ a b : Nat,
    (build_profile x y p a b).length = p.length := by
  induction p with
  | nil => intro a b; simp [build_profile]
  | cons d rest ih =>
    intro a b
    cases d <;> simp [build_profile, ih]

/-- Adding a finite rational never produces `+∞` from a finite value. -/
theorem ExtQ.addQ_ne_inf {a : ExtQ} {q : ℚ} (h : a.addQ q ≠ ExtQ.inf) :
    a ≠ ExtQ.inf := by
  cases a <;> simp_all [ExtQ.addQ]

/-- Adding a finite rational to a finite value stays finite. -/
theorem ExtQ.addQ_fin {a : ExtQ} (h : a ≠ ExtQ.inf) (q : ℚ) :
    a.addQ q ≠ ExtQ.inf := by
  cases a <;> simp_all [ExtQ.addQ]

/-- The running minimum of the `select` fold is finite as soon as the
accumulator or some candidate is. -/
theorem foldl_emin_ne_inf (l : List (Direction × ExtQ)) : ∀ acc : ExtQ,
    (acc ≠ ExtQ.inf ∨ ∃ c ∈ l, c.2 ≠ ExtQ.inf) →
    l.foldl (fun acc c => acc.emin c.2) acc ≠ ExtQ.inf := by
  induction l with
  | nil =>
    intro acc h
    simp only [List.foldl_nil]
    rcases h with h | ⟨c, hc, _⟩
    · exact h
    · simp at hc
  | cons c rest ih =>
    intro acc h
    simp only [List.foldl_cons]
    apply ih
    rcases h with h | ⟨e, he, hne⟩
    · left
      cases acc <;> cases hv : c.2 <;> simp_all [ExtQ.emin]
    · rcases List.mem_cons.mp he with rfl | he2
      · left
        cases acc <;> cases hv : e.2 <;> simp_all [ExtQ.emin]
      · exact Or.inr ⟨e, he2, hne⟩

/-- The minimum of two extended rationals is one of them. -/
theorem ExtQ.emin_choice (a b : ExtQ) : a.emin b = a ∨ a.emin b = b := by
  cases a <;> cases b
  · exact (min_choice _ _).imp (congrArg ExtQ.fin) (congrArg ExtQ.fin)
  · exact Or.inl rfl
  · exact Or.inr rfl
  · exact Or.inr rfl

/-- The value of the `select` fold is the accumulator or is attained by
a candidate. -/
theorem foldl_emin_attained (l : List (Direction × ExtQ)) : ∀ acc : ExtQ,
    l.foldl (fun acc c => acc.emin c.2) acc = acc ∨
    ∃ c ∈ l, c.2 = l.foldl (fun acc c => acc.emin c.2) acc := by
  induction l with
  | nil => intro acc; exact Or.inl rfl
  | cons c rest ih =>
    intro acc
    rcases ih (acc.emin c.2) with h | ⟨e, he, hv⟩
    · rw [List.foldl_cons, h]
      rcases ExtQ.emin_choice acc c.2 with h2 | h2
      · exact Or.inl h2
      · exact Or.inr ⟨c, List.mem_cons_self c rest, h2.symm⟩
    · rw [List.foldl_cons]
      exact Or.inr ⟨e, List.mem_cons_of_mem c he, hv⟩

/-- A finite candidate forces a finite `select` minimum. -/
theorem select_fin (cands : List (Direction × ExtQ))
    (h : ∃ c ∈ cands, c.2 ≠ ExtQ.inf) : (select cands).1 ≠ ExtQ.inf :=
  foldl_emin_ne_inf cands ExtQ.inf (Or.inr h)

/-- A finite `select` minimum has a non-empty tie set. -/
theorem select_nonempty (cands : List (Direction × ExtQ))
    (h : (select cands).1 ≠ ExtQ.inf) : (select cands).2 ≠ [] := by
  have hv1 : (select cands).1 = cands.foldl (fun acc c => acc.emin c.2) ExtQ.inf := rfl
  rcases foldl_emin_attained cands ExtQ.inf with h2 | ⟨c, hc, hv⟩
  · exact absurd (hv1.trans h2) h
  · simp only [select, ne_eq, List.map_eq_nil_iff, List.filter_eq_nil_iff]
    intro hall
    exact (hall c hc) (decide_eq_true hv)

/-- A member of a tie set names a candidate attaining the minimum. -/
theorem select_tie_mem (cands : List (Direction × ExtQ)) (d : Direction)
    (hd : d ∈ (select cands).2) :
    ∃ e ∈ cands, e.1 = d ∧ e.2 = (select cands).1 := by
  simp only [select, List.mem_map, List.mem_filter, decide_eq_true_eq] at hd
  obtain ⟨e, ⟨he, hv⟩, rfl⟩ := hd
  exact ⟨e, he, rfl, hv⟩

/-- With an in-range RNG, `pick` chooses a member of a non-empty tie
set. -/
theorem pick_mem (r : Nat → Nat) (l : List Direction)
    (hr : ∀ n, 0 < n → r n < n) (hl : l ≠ []) : pick r l ∈ l := by
  have hlen : 0 < l.length := List.length_pos.mpr hl
  unfold pick
  rw [List.getD_eq_getElem _ _ (hr _ hlen)]
  exact List.getElem_mem _

/-- The interior unfolding equation of the DP. -/
theorem dp_cells_succ_succ (alpha : List Char) (x y : List ParsimonySiteInfo)
    (cx cy : BranchParsimonyCosts) (i j : Nat) :
    dp_cells alpha x y cx cy (i+1) (j+1) =
      mk_cell alpha x y cx cy i j (dp_cells alpha x y cx cy i j)
        (dp_cells alpha x y cx cy i (j+1))
        (dp_cells alpha x y cx cy (i+1) j) := rfl

/-- A finite match layer sits at the origin or strictly inside the
matrix. -/
theorem m_ne_inf_pos (alpha : List Char) (x y : List ParsimonySiteInfo)
    (cx cy : BranchParsimonyCosts) (i j : Nat)
    (h : (dp_cells alpha x y cx cy i j).m ≠ ExtQ.inf) :
    (i = 0 ∧ j = 0) ∨ (1 ≤ i ∧ 1 ≤ j) := by
  match i, j with
  | 0, 0 => exact Or.inl ⟨rfl, rfl⟩
  | 0, j+1 => exact absurd rfl h
  | i+1, 0 => exact absurd rfl h
  | i+1, j+1 => exact Or.inr ⟨Nat.succ_le_succ (Nat.zero_le i), Nat.succ_le_succ (Nat.zero_le j)⟩

/-- A finite X-gap layer has consumed at least one X site. -/
theorem xg_ne_inf_pos (alpha : List Char) (x y : List ParsimonySiteInfo)
    (cx cy : BranchParsimonyCosts) (i j : Nat)
    (h : (dp_cells alpha x y cx cy i j).xg ≠ ExtQ.inf) : 1 ≤ i := by
  match i, j with
  | 0, 0 => exact absurd rfl h
  | 0, j+1 => exact absurd rfl h
  | i+1, _ => exact Nat.succ_le_succ (Nat.zero_le i)

/-- A finite Y-gap layer has consumed at least one Y site. -/
theorem yg_ne_inf_pos (alpha : List Char) (x y : List ParsimonySiteInfo)
    (cx cy : BranchParsimonyCosts) (i j : Nat)
    (h : (dp_cells alpha x y cx cy i j).yg ≠ ExtQ.inf) : 1 ≤ j := by
  match i, j with
  | 0, 0 => exact absurd rfl h
  | i+1, 0 => exact absurd rfl h
  | _, j+1 => exact Nat.succ_le_succ (Nat.zero_le j)

/-- The X-gap layer is finite everywhere below row 0. -/
theorem xg_fin (alpha : List Char) (x y : List ParsimonySiteInfo)
    (cx cy : BranchParsimonyCosts) :
    ∀ i j : Nat, 1 ≤ i → (dp_cells alpha x y cx cy i j).xg ≠ ExtQ.inf := by
  intro i
  induction i with
  | zero => intro j h; omega
  | succ i ih =>
    intro j _
    cases j with
    | zero => simp [dp_cells, dp_row_go]
    | succ j =>
      rw [dp_cells_succ_succ]
      simp only [mk_cell]
      apply select_fin
      cases i with
      | zero =>
        refine ⟨_, List.mem_cons_of_mem _ (List.mem_cons_of_mem _
          (List.mem_cons_self _ _)), ?_⟩
        exact ExtQ.addQ_fin (show (dp_cells alpha x y cx cy 0 (j+1)).yg ≠ ExtQ.inf by
          simp [dp_cells, dp_row0]) _
      | succ i2 =>
        refine ⟨_, List.mem_cons_of_mem _ (List.mem_cons_self _ _), ?_⟩
        exact ExtQ.addQ_fin (ih (j+1) (Nat.succ_le_succ (Nat.zero_le i2))) _

/-- The Y-gap layer is finite everywhere right of column 0. -/
theorem yg_fin (alpha : List Char) (x y : List ParsimonySiteInfo)
    (cx cy : BranchParsimonyCosts) :
    ∀ j i : Nat, 1 ≤ j → (dp_cells alpha x y cx cy i j).yg ≠ ExtQ.inf := by
  intro j
  induction j with
  | zero => intro i h; omega
  | succ j ih =>
    intro i _
    cases i with
    | zero => simp [dp_cells, dp_row0]
    | succ i =>
      rw [dp_cells_succ_succ]
      simp only [mk_cell]
      apply select_fin
      cases j with
      | zero =>
        refine ⟨_, List.mem_cons_of_mem _ (List.mem_cons_self _ _), ?_⟩
        exact ExtQ.addQ_fin (show (dp_cells alpha x y cx cy (i+1) 0).xg ≠ ExtQ.inf by
          simp [dp_cells, dp_row_go]) _
      | succ j2 =>
        refine ⟨_, List.mem_cons_of_mem _ (List.mem_cons_of_mem _
          (List.mem_cons_self _ _)), ?_⟩
        exact ExtQ.addQ_fin (ih (i+1) (Nat.succ_le_succ (Nat.zero_le j2))) _

/-- Match layer of an interior cell. -/
theorem mk_cell_m (alpha : List Char) (x y : List ParsimonySiteInfo)
    (cx cy : BranchParsimonyCosts) (i j : Nat) (diag up left : DPCell) :
    (mk_cell alpha x y cx cy i j diag up left).m =
      (select [(Direction.Matc, diag.m), (Direction.GapInY, diag.xg),
        (Direction.GapInX, diag.yg)]).1.addQ
        (match_term alpha cx cy (x.getD i default).set (y.getD j default).set) := rfl

/-- Match tie set of an interior cell. -/
theorem mk_cell_tm (alpha : List Char) (x y : List ParsimonySiteInfo)
    (cx cy : BranchParsimonyCosts) (i j : Nat) (diag up left : DPCell) :
    (mk_cell alpha x y cx cy i j diag up left).tm =
      (select [(Direction.Matc, diag.m), (Direction.GapInY, diag.xg),
        (Direction.GapInX, diag.yg)]).2 := rfl

/-- X-gap layer of an interior cell. -/
theorem mk_cell_xg (alpha : List Char) (x y : List ParsimonySiteInfo)
    (cx cy : BranchParsimonyCosts) (i j : Nat) (diag up left : DPCell) :
    (mk_cell alpha x y cx cy i j diag up left).xg =
      (select [(Direction.Matc, up.m.addQ (gap_step_cost x cx (i+1) false)),
        (Direction.GapInY, up.xg.addQ (gap_step_cost x cx (i+1) true)),
        (Direction.GapInX, up.yg.addQ (gap_step_cost x cx (i+1) false))]).1 := rfl

/-- X-gap tie set of an interior cell. -/
theorem mk_cell_tx (alpha : List Char) (x y : List ParsimonySiteInfo)
    (cx cy : BranchParsimonyCosts) (i j : Nat) (diag up left : DPCell) :
    (mk_cell alpha x y cx cy i j diag up left).tx =
      (select [(Direction.Matc, up.m.addQ (gap_step_cost x cx (i+1) false)),
        (Direction.GapInY, up.xg.addQ (gap_step_cost x cx (i+1) true)),
        (Direction.GapInX, up.yg.addQ (gap_step_cost x cx (i+1) false))]).2 := rfl

/-- Y-gap layer of an interior cell. -/
theorem mk_cell_yg (alpha : List Char) (x y : List ParsimonySiteInfo)
    (cx cy : BranchParsimonyCosts) (i j : Nat) (diag up left : DPCell) :
    (mk_cell alpha x y cx cy i j diag up left).yg =
      (select [(Direction.Matc, left.m.addQ (gap_step_cost y cy (j+1) false)),
        (Direction.GapInY, left.xg.addQ (gap_step_cost y cy (j+1) false)),
        (Direction.GapInX, left.yg.addQ (gap_step_cost y cy (j+1) true))]).1 := rfl

/-- Y-gap tie set of an interior cell. -/
theorem mk_cell_ty (alpha : List Char) (x y : List ParsimonySiteInfo)
    (cx cy : BranchParsimonyCosts) (i j : Nat) (diag up left : DPCell) :
    (mk_cell alpha x y cx cy i j diag up left).ty =
      (select [(Direction.Matc, left.m.addQ (gap_step_cost y cy (j+1) false)),
        (Direction.GapInY, left.xg.addQ (gap_step_cost y cy (j+1) false)),
        (Direction.GapInX, left.yg.addQ (gap_step_cost y cy (j+1) true))]).2 := rfl

/-- A member of a tie set whose `select` minimum is finite names a
finite layer of the predecessor cell triple. -/
theorem tie_layer_fin (m2 xg2 yg2 : ExtQ) (d : Direction)
    (hfin : (select [(Direction.Matc, m2), (Direction.GapInY, xg2),
      (Direction.GapInX, yg2)]).1 ≠ ExtQ.inf)
    (hd : d ∈ (select [(Direction.Matc, m2), (Direction.GapInY, xg2),
      (Direction.GapInX, yg2)]).2) :
    layer_val ⟨m2, xg2, yg2, [], [], []⟩ d ≠ ExtQ.inf := by
  obtain ⟨e, he, he1, he2⟩ := select_tie_mem _ _ hd
  simp only [List.mem_cons, List.not_mem_nil, or_false] at he
  rcases he with rfl | rfl | rfl
  · subst he1
    show m2 ≠ ExtQ.inf
    intro hbad
    exact hfin (he2.symm.trans hbad)
  · subst he1
    show xg2 ≠ ExtQ.inf
    intro hbad
    exact hfin (he2.symm.trans hbad)
  · subst he1
    show yg2 ≠ ExtQ.inf
    intro hbad
    exact hfin (he2.symm.trans hbad)

/-- Same statement with the three candidates carrying additive gap
charges. -/
theorem tie_layer_fin_addQ (m2 xg2 yg2 : ExtQ) (q1 q2 q3 : ℚ) (d : Direction)
    (hfin : (select [(Direction.Matc, m2.addQ q1), (Direction.GapInY, xg2.addQ q2),
      (Direction.GapInX, yg2.addQ q3)]).1 ≠ ExtQ.inf)
    (hd : d ∈ (select [(Direction.Matc, m2.addQ q1), (Direction.GapInY, xg2.addQ q2),
      (Direction.GapInX, yg2.addQ q3)]).2) :
    layer_val ⟨m2, xg2, yg2, [], [], []⟩ d ≠ ExtQ.inf := by
  obtain ⟨e, he, he1, he2⟩ := select_tie_mem _ _ hd
  simp only [List.mem_cons, List.not_mem_nil, or_false] at he
  rcases he with rfl | rfl | rfl
  · subst he1
    show m2 ≠ ExtQ.inf
    exact ExtQ.addQ_ne_inf (fun hbad => hfin (he2.symm.trans hbad))
  · subst he1
    show xg2 ≠ ExtQ.inf
    exact ExtQ.addQ_ne_inf (fun hbad => hfin (he2.symm.trans hbad))
  · subst he1
    show yg2 ≠ ExtQ.inf
    exact ExtQ.addQ_ne_inf (fun hbad => hfin (he2.symm.trans hbad))

/-- The layer value of a cell only depends on the three scores. -/
theorem layer_val_mk (c : DPCell) (d : Direction) :
    layer_val c d = layer_val ⟨c.m, c.xg, c.yg, [], [], []⟩ d := by
  cases d <;> rfl

/-- Unfolding of one match step of the traceback. -/
theorem traceback_go_matc (cells : Nat → Nat → DPCell) (rng : Nat → Nat → Nat)
    (fuel k i j : Nat) (h : ¬(i = 0 ∧ j = 0)) :
    traceback_go cells rng (fuel+1) k i j Direction.Matc =
      Direction.Matc ::
        traceback_go cells rng fuel (k+1) (i-1) (j-1) (pick (rng k) (cells i j).tm) := by
  simp [traceback_go, h]

/-- Unfolding of one gap-in-Y step of the traceback. -/
theorem traceback_go_gapiny (cells : Nat → Nat → DPCell) (rng : Nat → Nat → Nat)
    (fuel k i j : Nat) (h : ¬(i = 0 ∧ j = 0)) :
    traceback_go cells rng (fuel+1) k i j Direction.GapInY =
      Direction.GapInY ::
        traceback_go cells rng fuel (k+1) (i-1) j (pick (rng k) (cells i j).tx) := by
  simp [traceback_go, h]

/-- Unfolding of one gap-in-X step of the traceback. -/
theorem traceback_go_gapinx (cells : Nat → Nat → DPCell) (rng : Nat → Nat → Nat)
    (fuel k i j : Nat) (h : ¬(i = 0 ∧ j = 0)) :
    traceback_go cells rng (fuel+1) k i j Direction.GapInX =
      Direction.GapInX ::
        traceback_go cells rng fuel (k+1) i (j-1) (pick (rng k) (cells i j).ty) := by
  simp [traceback_go, h]

/-- The central traceback invariant: with an in-range RNG, enough fuel
and a finite current layer (or the origin), the backwards walk consumes
exactly `i` X sites and `j` Y sites. -/
theorem traceback_go_counts (alpha : List Char) (x y : List ParsimonySiteInfo)
    (cx cy : BranchParsimonyCosts) (rng : Nat → Nat → Nat)
    (hrng : ∀ k n, 0 < n → rng k n < n) :
    ∀ fuel k i j layer,
      i + j ≤ fuel →
      ((i = 0 ∧ j = 0) ∨
        layer_val (dp_cells alpha x y cx cy i j) layer ≠ ExtQ.inf) →
      (traceback_go (dp_cells alpha x y cx cy) rng fuel k i j layer).countP consumesX = i ∧
      (traceback_go (dp_cells alpha x y cx cy) rng fuel k i j layer).countP consumesY = j := by
  intro fuel
  induction fuel with
  | zero =>
    intro k i j layer hle hval
    have hi : i = 0 := by omega
    have hj : j = 0 := by omega
    subst hi
    subst hj
    simp [traceback_go]
  | succ fuel ih =>
    intro k i j layer hle hval
    by_cases h00 : i = 0 ∧ j = 0
    · obtain ⟨rfl, rfl⟩ := h00
      simp [traceback_go]
    · have hval2 : layer_val (dp_cells alpha x y cx cy i j) layer ≠ ExtQ.inf := by
        rcases hval with h | h
        · exact absurd h h00
        · exact h
      cases layer with
      | Matc =>
        have hm : (dp_cells alpha x y cx cy i j).m ≠ ExtQ.inf := hval2
        rcases m_ne_inf_pos alpha x y cx cy i j hm with h | ⟨hi, hj⟩
        · exact absurd h h00
        obtain ⟨i2, rfl⟩ : ∃ i2, i = i2 + 1 := ⟨i - 1, by omega⟩
        obtain ⟨j2, rfl⟩ : ∃ j2, j = j2 + 1 := ⟨j - 1, by omega⟩
        rw [dp_cells_succ_succ, mk_cell_m] at hm
        have hmv := ExtQ.addQ_ne_inf hm
        have htm : (dp_cells alpha x y cx cy (i2+1) (j2+1)).tm =
            (select [(Direction.Matc, (dp_cells alpha x y cx cy i2 j2).m),
              (Direction.GapInY, (dp_cells alpha x y cx cy i2 j2).xg),
              (Direction.GapInX, (dp_cells alpha x y cx cy i2 j2).yg)]).2 := by
          rw [dp_cells_succ_succ, mk_cell_tm]
        have hpick : pick (rng k) (dp_cells alpha x y cx cy (i2+1) (j2+1)).tm ∈
            (select [(Direction.Matc, (dp_cells alpha x y cx cy i2 j2).m),
              (Direction.GapInY, (dp_cells alpha x y cx cy i2 j2).xg),
              (Direction.GapInX, (dp_cells alpha x y cx cy i2 j2).yg)]).2 := by
          rw [htm]
          exact pick_mem _ _ (fun n hn => hrng k n hn) (select_nonempty _ hmv)
        have hnext := tie_layer_fin _ _ _ _ hmv hpick
        rw [← layer_val_mk] at hnext
        rw [traceback_go_matc _ _ _ _ _ _ h00]
        have hrec := ih (k+1) i2 j2
          (pick (rng k) (dp_cells alpha x y cx cy (i2+1) (j2+1)).tm)
          (by omega) (Or.inr hnext)
        simp only [Nat.add_sub_cancel]
        rw [List.countP_cons, List.countP_cons,
          if_pos (show consumesX Direction.Matc = true from rfl),
          if_pos (show consumesY Direction.Matc = true from rfl)]
        omega
      | GapInY =>
        have hxg : (dp_cells alpha x y cx cy i j).xg ≠ ExtQ.inf := hval2
        have hi := xg_ne_inf_pos alpha x y cx cy i j hxg
        obtain ⟨i2, rfl⟩ : ∃ i2, i = i2 + 1 := ⟨i - 1, by omega⟩
        cases j with
        | zero =>
          have htx : (dp_cells alpha x y cx cy (i2+1) 0).tx = [Direction.GapInY] := by
            simp [dp_cells, dp_row_go]
          have hpickeq : pick (rng k) (dp_cells alpha x y cx cy (i2+1) 0).tx =
              Direction.GapInY := by
            rw [htx]
            have := pick_mem (rng k) [Direction.GapInY]
              (fun n hn => hrng k n hn) (by simp)
            simpa using this
          have hnext : (i2 = 0 ∧ 0 = 0) ∨
              layer_val (dp_cells alpha x y cx cy i2 0) Direction.GapInY ≠ ExtQ.inf := by
            cases i2 with
            | zero => exact Or.inl ⟨rfl, rfl⟩
            | succ i3 =>
              right
              simp [dp_cells, dp_row_go, layer_val]
          rw [traceback_go_gapiny _ _ _ _ _ _ h00]
          rw [hpickeq]
          have hrec := ih (k+1) i2 0 Direction.GapInY (by omega) hnext
          simp only [Nat.add_sub_cancel]
          rw [List.countP_cons, List.countP_cons,
            if_pos (show consumesX Direction.GapInY = true from rfl),
            if_neg (show ¬ consumesY Direction.GapInY = true from by decide)]
          omega
        | succ j2 =>
          rw [dp_cells_succ_succ, mk_cell_xg] at hxg
          have htx : (dp_cells alpha x y cx cy (i2+1) (j2+1)).tx =
              (select [(Direction.Matc, (dp_cells alpha x y cx cy i2 (j2+1)).m.addQ
                  (gap_step_cost x cx (i2+1) false)),
                (Direction.GapInY, (dp_cells alpha x y cx cy i2 (j2+1)).xg.addQ
                  (gap_step_cost x cx (i2+1) true)),
                (Direction.GapInX, (dp_cells alpha x y cx cy i2 (j2+1)).yg.addQ
                  (gap_step_cost x cx (i2+1) false))]).2 := by
            rw [dp_cells_succ_succ, mk_cell_tx]
          have hpick : pick (rng k) (dp_cells alpha x y cx cy (i2+1) (j2+1)).tx ∈
              (select [(Direction.Matc, (dp_cells alpha x y cx cy i2 (j2+1)).m.addQ
                  (gap_step_cost x cx (i2+1) false)),
                (Direction.GapInY, (dp_cells alpha x y cx cy i2 (j2+1)).xg.addQ
                  (gap_step_cost x cx (i2+1) true)),
                (Direction.GapInX, (dp_cells alpha x y cx cy i2 (j2+1)).yg.addQ
                  (gap_step_cost x cx (i2+1) false))]).2 := by
            rw [htx]
            exact pick_mem _ _ (fun n hn => hrng k n hn) (select_nonempty _ hxg)
          have hnext := tie_layer_fin_addQ _ _ _ _ _ _ _ hxg hpick
          rw [← layer_val_mk] at hnext
          rw [traceback_go_gapiny _ _ _ _ _ _ h00]
          have hrec := ih (k+1) i2 (j2+1)
            (pick (rng k) (dp_cells alpha x y cx cy (i2+1) (j2+1)).tx)
            (by omega) (Or.inr hnext)
          simp only [Nat.add_sub_cancel]
          rw [List.countP_cons, List.countP_cons,
            if_pos (show consumesX Direction.GapInY = true from rfl),
            if_neg (show ¬ consumesY Direction.GapInY = true from by decide)]
          omega
      | GapInX =>
        have hyg : (dp_cells alpha x y cx cy i j).yg ≠ ExtQ.inf := hval2
        have hj := yg_ne_inf_pos alpha x y cx cy i j hyg
        obtain ⟨j2, rfl⟩ : ∃ j2, j = j2 + 1 := ⟨j - 1, by omega⟩
        cases i with
        | zero =>
          have hty : (dp_cells alpha x y cx cy 0 (j2+1)).ty = [Direction.GapInX] := by
            simp [dp_cells, dp_row0]
          have hpickeq : pick (rng k) (dp_cells alpha x y cx cy 0 (j2+1)).ty =
              Direction.GapInX := by
            rw [hty]
            have := pick_mem (rng k) [Direction.GapInX]
              (fun n hn => hrng k n hn) (by simp)
            simpa using this
          have hnext : (0 = 0 ∧ j2 = 0) ∨
              layer_val (dp_cells alpha x y cx cy 0 j2) Direction.GapInX ≠ ExtQ.inf := by
            cases j2 with
            | zero => exact Or.inl ⟨rfl, rfl⟩
            | succ j3 =>
              right
              simp [dp_cells, dp_row0, layer_val]
          rw [traceback_go_gapinx _ _ _ _ _ _ h00]
          rw [hpickeq]
          have hrec := ih (k+1) 0 j2 Direction.GapInX (by omega) hnext
          simp only [Nat.add_sub_cancel]
          rw [List.countP_cons, List.countP_cons,
            if_neg (show ¬ consumesX Direction.GapInX = true from by decide),
            if_pos (show consumesY Direction.GapInX = true from rfl)]
          omega
        | succ i2 =>
          rw [dp_cells_succ_succ, mk_cell_yg] at hyg
          have hty : (dp_cells alpha x y cx cy (i2+1) (j2+1)).ty =
              (select [(Direction.Matc, (dp_cells alpha x y cx cy (i2+1) j2).m.addQ
                  (gap_step_cost y cy (j2+1) false)),
                (Direction.GapInY, (dp_cells alpha x y cx cy (i2+1) j2).xg.addQ
                  (gap_step_cost y cy (j2+1) false)),
                (Direction.GapInX, (dp_cells alpha x y cx cy (i2+1) j2).yg.addQ
                  (gap_step_cost y cy (j2+1) true))]).2 := by
            rw [dp_cells_succ_succ, mk_cell_ty]
          have hpick : pick (rng k) (dp_cells alpha x y cx cy (i2+1) (j2+1)).ty ∈
              (select [(Direction.Matc, (dp_cells alpha x y cx cy (i2+1) j2).m.addQ
                  (gap_step_cost y cy (j2+1) false)),
                (Direction.GapInY, (dp_cells alpha x y cx cy (i2+1) j2).xg.addQ
                  (gap_step_cost y cy (j2+1) false)),
                (Direction.GapInX, (dp_cells alpha x y cx cy (i2+1) j2).yg.addQ
                  (gap_step_cost y cy (j2+1) true))]).2 := by
            rw [hty]
            exact pick_mem _ _ (fun n hn => hrng k n hn) (select_nonempty _ hyg)
          have hnext := tie_layer_fin_addQ _ _ _ _ _ _ _ hyg hpick
          rw [← layer_val_mk] at hnext
          rw [traceback_go_gapinx _ _ _ _ _ _ h00]
          have hrec := ih (k+1) (i2+1) j2
            (pick (rng k) (dp_cells alpha x y cx cy (i2+1) (j2+1)).ty)
            (by omega) (Or.inr hnext)
          simp only [Nat.add_sub_cancel]
          rw [List.countP_cons, List.countP_cons,
            if_neg (show ¬ consumesX Direction.GapInX = true from by decide),
            if_pos (show consumesY Direction.GapInX = true from rfl)]
          omega

/-- Maps built from a column list with the given consumption counts
satisfy the mapping invariant. -/
theorem maps_invariant_of_counts (p : List Direction) (n m : Nat)
    (hx : p.countP consumesX = n) (hy : p.countP consumesY = m) :
    mapping_invariant ⟨(dirs_to_maps p 0 0).1, (dirs_to_maps p 0 0).2⟩ n m := by
  refine ⟨?_, ?_, ?_, ?_⟩
  · show (dirs_to_maps p 0 0).1.length = (dirs_to_maps p 0 0).2.length
    rw [(dirs_to_maps_length p 0 0).1, (dirs_to_maps_length p 0 0).2]
  · exact dirs_to_maps_no_both_none p 0 0
  · show (dirs_to_maps p 0 0).1.filterMap id = List.range n
    rw [(dirs_to_maps_covers p 0 0).1, hx, List.range_eq_range']
  · show (dirs_to_maps p 0 0).2.filterMap id = List.range m
    rw [(dirs_to_maps_covers p 0 0).2, hy, List.range_eq_range']

/-- The pairwise aligner's output mapping satisfies the mapping
invariant against the two input profile lengths, and the merged profile
is as long as the mapping. -/
theorem pars_align_core_spec (alpha : List Char) (x y : List ParsimonySiteInfo)
    (cx cy : BranchParsimonyCosts) (rng : Nat → Nat → Nat)
    (hrng : ∀ k n, 0 < n → rng k n < n) :
    mapping_invariant (pars_align_core alpha x cx y cy rng).2.1 x.length y.length ∧
    (pars_align_core alpha x cx y cy rng).1.length =
      (pars_align_core alpha x cx y cy rng).2.1.map_x.length := by
  have hstart : (x.length = 0 ∧ y.length = 0) ∨
      layer_val (dp_cells alpha x y cx cy x.length y.length)
        (pick (rng 0)
          (select [(Direction.Matc, (dp_cells alpha x y cx cy x.length y.length).m),
            (Direction.GapInY, (dp_cells alpha x y cx cy x.length y.length).xg),
            (Direction.GapInX, (dp_cells alpha x y cx cy x.length y.length).yg)]).2) ≠
        ExtQ.inf := by
    rcases Nat.eq_zero_or_pos x.length with hx0 | hx1
    · rcases Nat.eq_zero_or_pos y.length with hy0 | hy1
      · exact Or.inl ⟨hx0, hy0⟩
      · right
        have hfin := select_fin
          [(Direction.Matc, (dp_cells alpha x y cx cy x.length y.length).m),
            (Direction.GapInY, (dp_cells alpha x y cx cy x.length y.length).xg),
            (Direction.GapInX, (dp_cells alpha x y cx cy x.length y.length).yg)]
          ⟨_, List.mem_cons_of_mem _ (List.mem_cons_of_mem _ (List.mem_cons_self _ _)),
            yg_fin alpha x y cx cy y.length x.length hy1⟩
        have hp := pick_mem (rng 0) _ (fun n hn => hrng 0 n hn) (select_nonempty _ hfin)
        have hres := tie_layer_fin _ _ _ _ hfin hp
        rw [← layer_val_mk] at hres
        exact hres
    · right
      have hfin := select_fin
        [(Direction.Matc, (dp_cells alpha x y cx cy x.length y.length).m),
          (Direction.GapInY, (dp_cells alpha x y cx cy x.length y.length).xg),
          (Direction.GapInX, (dp_cells alpha x y cx cy x.length y.length).yg)]
        ⟨_, List.mem_cons_of_mem _ (List.mem_cons_self _ _),
          xg_fin alpha x y cx cy x.length y.length hx1⟩
      have hp := pick_mem (rng 0) _ (fun n hn => hrng 0 n hn) (select_nonempty _ hfin)
      have hres := tie_layer_fin _ _ _ _ hfin hp
      rw [← layer_val_mk] at hres
      exact hres
  have hcount := traceback_go_counts alpha x y cx cy rng hrng (x.length + y.length) 1
    x.length y.length
    (pick (rng 0)
      (select [(Direction.Matc, (dp_cells alpha x y cx cy x.length y.length).m),
        (Direction.GapInY, (dp_cells alpha x y cx cy x.length y.length).xg),
        (Direction.GapInX, (dp_cells alpha x y cx cy x.length y.length).yg)]).2)
    le_rfl hstart
  have hrx : ((traceback_go (dp_cells alpha x y cx cy) rng (x.length + y.length) 1
      x.length y.length
      (pick (rng 0)
        (select [(Direction.Matc, (dp_cells alpha x y cx cy x.length y.length).m),
          (Direction.GapInY, (dp_cells alpha x y cx cy x.length y.length).xg),
          (Direction.GapInX, (dp_cells alpha x y cx cy x.length y.length).yg)]).2)).reverse).countP
      consumesX = x.length := by
    rw [List.countP_reverse]
    exact hcount.1
  have hry : ((traceback_go (dp_cells alpha x y cx cy) rng (x.length + y.length) 1
      x.length y.length
      (pick (rng 0)
        (select [(Direction.Matc, (dp_cells alpha x y cx cy x.length y.length).m),
          (Direction.GapInY, (dp_cells alpha x y cx cy x.length y.length).xg),
          (Direction.GapInX, (dp_cells alpha x y cx cy x.length y.length).yg)]).2)).reverse).countP
      consumesY = y.length := by
    rw [List.countP_reverse]
    exact hcount.2
  constructor
  · exact maps_invariant_of_counts _ _ _ hrx hry
  · exact (build_profile_length x y _ 0 0).trans ((dirs_to_maps_length _ 0 0).1).symm

/-- The children of a node, empty for leaves. -/
def node_children (tree : PhyloTree) : NodeIdx → List NodeIdx
  | .Internal i => [(tree.internals.getD i default).children.1,
      (tree.internals.getD i default).children.2]
  | .Leaf _ => []

/-- Index bounds of a node against the tree's arrays. -/
def node_in_bounds (tree : PhyloTree) : NodeIdx → Prop
  | .Internal i => i < tree.internals.length
  | .Leaf i => i < tree.leaves.length

instance (tree : PhyloTree) (n : NodeIdx) : Decidable (node_in_bounds tree n) :=
  match n with
  | .Internal _ => Nat.decLt _ _
  | .Leaf _ => Nat.decLt _ _

/-- The profile length of a node as determined by the driver outputs:
one profile site per leaf residue, and for an internal node the length
of its stored mapping. -/
def len_of (info : PhyloInfo) (alignments : List Alignment) : NodeIdx → Nat
  | .Leaf i => (info.sequences.getD i default).seq.length
  | .Internal i => (alignments.getD i Alignment.empty).map_x.length

/-- The driver-loop invariant over the processed prefix: vector lengths
are stable, every processed leaf carries its parsimony profile, and
every processed internal node stores an alignment satisfying the
mapping invariant against its children's current profile lengths plus a
merged profile of the mapping's length. -/
def DriveInv (info : PhyloInfo) (st : TreeState) (pr : List NodeIdx) : Prop :=
  st.internal_info.length = info.tree.internals.length ∧
  st.leaf_info.length = info.tree.leaves.length ∧
  st.alignments.length = info.tree.internals.length ∧
  (∀ i, NodeIdx.Leaf i ∈ pr →
    st.leaf_info.getD i [] =
      (get_parsimony_sets (info.sequences.getD i default).seq).map
        ParsimonySiteInfo.new_leaf) ∧
  (∀ i, NodeIdx.Internal i ∈ pr →
    mapping_invariant (st.alignments.getD i Alignment.empty)
      (child_info info.tree st (info.tree.internals.getD i default).children.1).1.length
      (child_info info.tree st (info.tree.internals.getD i default).children.2).1.length ∧
    (st.internal_info.getD i []).length =
      (st.alignments.getD i Alignment.empty).map_x.length)

/-- One driver step leaves the child lookup of any other node
unchanged. -/
theorem child_info_pars_step (alpha : List Char)
    (scoring : ℚ → BranchParsimonyCosts) (info : PhyloInfo)
    (rngs : Nat → Nat → Nat → Nat) (st : TreeState) (n c : NodeIdx)
    (hne : c ≠ n) :
    child_info info.tree (pars_step alpha scoring info rngs st n) c =
      child_info info.tree st c := by
  cases n with
  | Leaf idx =>
    cases c with
    | Leaf m =>
      have hm : idx ≠ m := fun h => hne (by rw [h])
      simp only [pars_step, child_info]
      rw [getD_set_ne _ _ _ _ _ hm]
    | Internal m => rfl
  | Internal idx =>
    cases c with
    | Leaf m => rfl
    | Internal m =>
      have hm : idx ≠ m := fun h => hne (by rw [h])
      simp only [pars_step, child_info]
      rw [getD_set_ne _ _ _ _ _ hm]

/-- One driver step leaves the stored data of any other internal node
unchanged. -/
theorem stored_pars_step (alpha : List Char)
    (scoring : ℚ → BranchParsimonyCosts) (info : PhyloInfo)
    (rngs : Nat → Nat → Nat → Nat) (st : TreeState) (n : NodeIdx) (i : Nat)
    (hne : NodeIdx.Internal i ≠ n) :
    (pars_step alpha scoring info rngs st n).alignments.getD i Alignment.empty =
      st.alignments.getD i Alignment.empty ∧
    (pars_step alpha scoring info rngs st n).internal_info.getD i [] =
      st.internal_info.getD i [] := by
  cases n with
  | Leaf idx => exact ⟨rfl, rfl⟩
  | Internal idx =>
    have hm : idx ≠ i := fun h => hne (by rw [h])
    constructor
    · simp only [pars_step]
      rw [getD_set_ne _ _ _ _ _ hm]
    · simp only [pars_step]
      rw [getD_set_ne _ _ _ _ _ hm]

/-- One driver step leaves the stored profile of any other leaf
unchanged. -/
theorem leaf_pars_step (alpha : List Char)
    (scoring : ℚ → BranchParsimonyCosts) (info : PhyloInfo)
    (rngs : Nat → Nat → Nat → Nat) (st : TreeState) (n : NodeIdx) (i : Nat)
    (hne : NodeIdx.Leaf i ≠ n) :
    (pars_step alpha scoring info rngs st n).leaf_info.getD i [] =
      st.leaf_info.getD i [] := by
  cases n with
  | Leaf idx =>
    have hm : idx ≠ i := fun h => hne (by rw [h])
    simp only [pars_step]
    rw [getD_set_ne _ _ _ _ _ hm]
  | Internal idx => rfl

/-- One driver step keeps the state vector lengths. -/
theorem lengths_pars_step (alpha : List Char)
    (scoring : ℚ → BranchParsimonyCosts) (info : PhyloInfo)
    (rngs : Nat → Nat → Nat → Nat) (st : TreeState) (n : NodeIdx) :
    (pars_step alpha scoring info rngs st n).internal_info.length =
      st.internal_info.length ∧
    (pars_step alpha scoring info rngs st n).leaf_info.length =
      st.leaf_info.length ∧
    (pars_step alpha scoring info rngs st n).alignments.length =
      st.alignments.length := by
  cases n with
  | Leaf idx => exact ⟨rfl, by simp [pars_step], rfl⟩
  | Internal idx => exact ⟨by simp [pars_step], rfl, by simp [pars_step]⟩

/-- In a nodup list split as `pr ++ n :: l`, the pivot is not in the
prefix. -/
theorem pivot_not_mem_prefix {α : Type} {pr l : List α} {n : α}
    (h : (pr ++ n :: l).Nodup) : n ∉ pr := by
  intro hmem
  rcases List.nodup_append.mp h with ⟨_, _, hdisj⟩
  exact hdisj hmem (List.mem_cons_self n l)

/-- The children of an internal node found in a prefix of the postorder
are themselves in that prefix. -/
theorem children_in_prefix (tree : PhyloTree) (pr l : List NodeIdx)
    (hpost : tree.postorder = pr ++ l)
    (hchild : ∀ k < tree.postorder.length,
      ∀ c ∈ node_children tree (tree.postorder.getD k (NodeIdx.Leaf 0)),
        c ∈ tree.postorder.take k)
    (i : Nat) (hmem : NodeIdx.Internal i ∈ pr) :
    (tree.internals.getD i default).children.1 ∈ pr ∧
    (tree.internals.getD i default).children.2 ∈ pr := by
  obtain ⟨k, hk, hget⟩ := List.mem_iff_getElem.mp hmem
  have hk2 : k < tree.postorder.length := by
    rw [hpost, List.length_append]
    omega
  have hgetpost : tree.postorder.getD k (NodeIdx.Leaf 0) = NodeIdx.Internal i := by
    rw [hpost, List.getD_eq_getElem?_getD, List.getElem?_append_left hk,
      ← List.getD_eq_getElem?_getD, List.getD_eq_getElem _ _ hk, hget]
  have htake : tree.postorder.take k ⊆ pr := by
    have hk0 : k - pr.length = 0 := by omega
    rw [hpost, List.take_append_eq_append_take, hk0, List.take_zero, List.append_nil]
    exact List.take_subset k pr
  have h1 := hchild k hk2
  rw [hgetpost] at h1
  exact ⟨htake (h1 _ (by simp [node_children])),
    htake (h1 _ (by simp [node_children]))⟩

/-- One driver step preserves the loop invariant, extending the
processed prefix by the pivot node. -/
theorem drive_step (alpha : List Char) (scoring : ℚ → BranchParsimonyCosts)
    (info : PhyloInfo) (rngs : Nat → Nat → Nat → Nat)
    (hrng : ∀ idx k n, 0 < n → rngs idx k n < n)
    (pr l : List NodeIdx) (n : NodeIdx)
    (hpost : info.tree.postorder = pr ++ n :: l)
    (hnodup : info.tree.postorder.Nodup)
    (hbounds : ∀ nd ∈ info.tree.postorder, node_in_bounds info.tree nd)
    (hchild : ∀ k < info.tree.postorder.length,
      ∀ c ∈ node_children info.tree (info.tree.postorder.getD k (NodeIdx.Leaf 0)),
        c ∈ info.tree.postorder.take k)
    (st : TreeState) (hinv : DriveInv info st pr) :
    DriveInv info (pars_step alpha scoring info rngs st n) (pr ++ [n]) := by
  obtain ⟨hl1, hl2, hl3, hleaf, hint⟩ := hinv
  have hnotmem : n ∉ pr := pivot_not_mem_prefix (hpost ▸ hnodup)
  have hnmem : n ∈ info.tree.postorder := by
    rw [hpost]
    exact List.mem_append_right _ (List.mem_cons_self _ _)
  have hlen := lengths_pars_step alpha scoring info rngs st n
  refine ⟨hlen.1.trans hl1, hlen.2.1.trans hl2, hlen.2.2.trans hl3, ?_, ?_⟩
  · intro i hi
    rcases List.mem_append.mp hi with hi | hi
    · have hne : NodeIdx.Leaf i ≠ n := fun h => hnotmem (h ▸ hi)
      rw [leaf_pars_step _ _ _ _ _ _ _ hne]
      exact hleaf i hi
    · have hn : n = NodeIdx.Leaf i := (List.mem_singleton.mp hi).symm
      subst hn
      have hb : i < info.tree.leaves.length := hbounds _ hnmem
      show (pars_step alpha scoring info rngs st (NodeIdx.Leaf i)).leaf_info.getD i [] = _
      simp only [pars_step]
      rw [getD_set_self _ _ _ _ (by rw [hl2]; exact hb)]
  · intro i hi
    rcases List.mem_append.mp hi with hi | hi
    · have hne : NodeIdx.Internal i ≠ n := fun h => hnotmem (h ▸ hi)
      have hst := stored_pars_step alpha scoring info rngs st n i hne
      obtain ⟨hc1, hc2⟩ := children_in_prefix info.tree pr (n :: l) hpost hchild i hi
      have hch1 : (info.tree.internals.getD i default).children.1 ≠ n :=
        fun h => hnotmem (h ▸ hc1)
      have hch2 : (info.tree.internals.getD i default).children.2 ≠ n :=
        fun h => hnotmem (h ▸ hc2)
      rw [hst.1, hst.2, child_info_pars_step _ _ _ _ _ _ _ hch1,
        child_info_pars_step _ _ _ _ _ _ _ hch2]
      exact hint i hi
    · have hn : n = NodeIdx.Internal i := (List.mem_singleton.mp hi).symm
      subst hn
      have hb : i < info.tree.internals.length := hbounds _ hnmem
      have hkpos : info.tree.postorder.getD pr.length (NodeIdx.Leaf 0) =
          NodeIdx.Internal i := by
        rw [hpost, List.getD_eq_getElem?_getD, List.getElem?_append_right le_rfl]
        simp
      have hcpr := hchild pr.length (by rw [hpost, List.length_append]; simp)
      rw [hkpos] at hcpr
      have htakepr : info.tree.postorder.take pr.length = pr := by
        rw [hpost, List.take_append_eq_append_take, Nat.sub_self, List.take_zero,
          List.append_nil, List.take_length]
      have hc1 : (info.tree.internals.getD i default).children.1 ∈ pr := by
        rw [← htakepr]
        exact hcpr _ (by simp [node_children])
      have hc2 : (info.tree.internals.getD i default).children.2 ∈ pr := by
        rw [← htakepr]
        exact hcpr _ (by simp [node_children])
      have hch1 : (info.tree.internals.getD i default).children.1 ≠ NodeIdx.Internal i :=
        fun h => hnotmem (h ▸ hc1)
      have hch2 : (info.tree.internals.getD i default).children.2 ≠ NodeIdx.Internal i :=
        fun h => hnotmem (h ▸ hc2)
      have hres := pars_align_core_spec alpha
        (child_info info.tree st (info.tree.internals.getD i default).children.1).1
        (child_info info.tree st (info.tree.internals.getD i default).children.2).1
        (scoring (child_info info.tree st
          (info.tree.internals.getD i default).children.1).2)
        (scoring (child_info info.tree st
          (info.tree.internals.getD i default).children.2).2)
        (rngs i) (fun k n2 hn2 => hrng i k n2 hn2)
      have halg : (pars_step alpha scoring info rngs st
            (NodeIdx.Internal i)).alignments.getD i Alignment.empty =
          (pars_align_core alpha
            (child_info info.tree st (info.tree.internals.getD i default).children.1).1
            (scoring (child_info info.tree st
              (info.tree.internals.getD i default).children.1).2)
            (child_info info.tree st (info.tree.internals.getD i default).children.2).1
            (scoring (child_info info.tree st
              (info.tree.internals.getD i default).children.2).2)
            (rngs i)).2.1 := by
        simp only [pars_step]
        rw [getD_set_self _ _ _ _ (by rw [hl3]; exact hb)]
      have hprof : (pars_step alpha scoring info rngs st
            (NodeIdx.Internal i)).internal_info.getD i [] =
          (pars_align_core alpha
            (child_info info.tree st (info.tree.internals.getD i default).children.1).1
            (scoring (child_info info.tree st
              (info.tree.internals.getD i default).children.1).2)
            (child_info info.tree st (info.tree.internals.getD i default).children.2).1
            (scoring (child_info info.tree st
              (info.tree.internals.getD i default).children.2).2)
            (rngs i)).1 := by
        simp only [pars_step]
        rw [getD_set_self _ _ _ _ (by rw [hl1]; exact hb)]
      rw [child_info_pars_step _ _ _ _ _ _ _ hch1,
        child_info_pars_step _ _ _ _ _ _ _ hch2, halg, hprof]
      constructor
      · exact hres.1
      · rw [hres.2]

/-- The fold over a postorder suffix carries the driver invariant
through. -/
theorem drive_fold (alpha : List Char) (scoring : ℚ → BranchParsimonyCosts)
    (info : PhyloInfo) (rngs : Nat → Nat → Nat → Nat)
    (hrng : ∀ idx k n, 0 < n → rngs idx k n < n)
    (hnodup : info.tree.postorder.Nodup)
    (hbounds : ∀ nd ∈ info.tree.postorder, node_in_bounds info.tree nd)
    (hchild : ∀ k < info.tree.postorder.length,
      ∀ c ∈ node_children info.tree (info.tree.postorder.getD k (NodeIdx.Leaf 0)),
        c ∈ info.tree.postorder.take k) :
    ∀ (l pr : List NodeIdx) (st : TreeState),
      info.tree.postorder = pr ++ l → DriveInv info st pr →
      DriveInv info (l.foldl (pars_step alpha scoring info rngs) st) (pr ++ l) := by
  intro l
  induction l with
  | nil =>
    intro pr st h hinv
    simpa using hinv
  | cons n l ih =>
    intro pr st h hinv
    have hstep := drive_step alpha scoring info rngs hrng pr l n h hnodup hbounds
      hchild st hinv
    have hres := ih (pr ++ [n]) (pars_step alpha scoring info rngs st n)
      (by rw [h, List.append_assoc]; rfl) hstep
    rw [List.foldl_cons]
    rw [show pr ++ n :: l = (pr ++ [n]) ++ l by rw [List.append_assoc]; rfl]
    exact hres

/-- Claim C1: in every run of `pars_align_on_tree` on a well-formed
rooted binary tree with leaf sequences, the alignment stored for every
internal node satisfies: `map_x` and `map_y` have equal length; no
column is `None` on both sides; and the `Some` values of `map_x`
(resp. `map_y`), read in column order, form the strictly increasing
enumeration of exactly `0..|X|` (resp. `0..|Y|`), where `|X|` and `|Y|`
are the profile lengths of the node's two children. -/
theorem C1_pars_align_on_tree_mapping_invariant (alpha : List Char)
    (scoring : ℚ → BranchParsimonyCosts) (info : PhyloInfo)
    (rngs : Nat → Nat → Nat → Nat)
    (hrng : ∀ idx k n, 0 < n → rngs idx k n < n)
    (hnodup : info.tree.postorder.Nodup)
    (hbounds : ∀ nd ∈ info.tree.postorder, node_in_bounds info.tree nd)
    (hchild : ∀ k < info.tree.postorder.length,
      ∀ c ∈ node_children info.tree (info.tree.postorder.getD k (NodeIdx.Leaf 0)),
        c ∈ info.tree.postorder.take k)
    (hmem : ∀ i < info.tree.internals.length,
      NodeIdx.Internal i ∈ info.tree.postorder) :
    ∀ i < info.tree.internals.length,
      mapping_invariant
        ((pars_align_on_tree alpha scoring info rngs).1.getD i Alignment.empty)
        (len_of info (pars_align_on_tree alpha scoring info rngs).1
          (info.tree.internals.getD i default).children.1)
        (len_of info (pars_align_on_tree alpha scoring info rngs).1
          (info.tree.internals.getD i default).children.2) := by
  intro i hib
  have hinit : DriveInv info
      ⟨List.replicate info.tree.internals.length [],
       List.replicate info.tree.leaves.length [],
       List.replicate info.tree.internals.length Alignment.empty,
       List.replicate info.tree.internals.length (ExtQ.fin 0)⟩ [] :=
    ⟨by simp, by simp, by simp, by simp, by simp⟩
  have hfin := drive_fold alpha scoring info rngs hrng hnodup hbounds hchild
    info.tree.postorder []
    ⟨List.replicate info.tree.internals.length [],
     List.replicate info.tree.leaves.length [],
     List.replicate info.tree.internals.length Alignment.empty,
     List.replicate info.tree.internals.length (ExtQ.fin 0)⟩ rfl hinit
  rw [List.nil_append] at hfin
  obtain ⟨hL1, hL2, hL3, hleaf, hint⟩ := hfin
  have hii := hint i (hmem i hib)
  have hlen_eq : ∀ c ∈ info.tree.postorder,
      (child_info info.tree
        (info.tree.postorder.foldl (pars_step alpha scoring info rngs)
          ⟨List.replicate info.tree.internals.length [],
           List.replicate info.tree.leaves.length [],
           List.replicate info.tree.internals.length Alignment.empty,
           List.replicate info.tree.internals.length (ExtQ.fin 0)⟩) c).1.length =
      len_of info
        (info.tree.postorder.foldl (pars_step alpha scoring info rngs)
          ⟨List.replicate info.tree.internals.length [],
           List.replicate info.tree.leaves.length [],
           List.replicate info.tree.internals.length Alignment.empty,
           List.replicate info.tree.internals.length (ExtQ.fin 0)⟩).alignments c := by
    intro c hc
    cases c with
    | Leaf m =>
      simp only [child_info, len_of]
      rw [hleaf m hc]
      simp [get_parsimony_sets]
    | Internal m =>
      exact (hint m hc).2
  obtain ⟨hcm1, hcm2⟩ := children_in_prefix info.tree info.tree.postorder []
    (List.append_nil _).symm hchild i (hmem i hib)
  rw [hlen_eq _ hcm1, hlen_eq _ hcm2] at hii
  exact hii.1

/-- A concrete two-leaf cherry used to instantiate the general
theorems: leaves A = AACT and B = AC under one internal root. -/
def witness_tree : PhyloTree :=
  ⟨NodeIdx.Internal 0, [⟨(NodeIdx.Leaf 0, NodeIdx.Leaf 1), 1⟩], [⟨1⟩, ⟨1⟩],
    [NodeIdx.Leaf 0, NodeIdx.Leaf 1, NodeIdx.Internal 0]⟩

/-- The phylo input with the two concrete records. -/
def witness_info : PhyloInfo :=
  ⟨witness_tree, [⟨"A", none, ['A', 'A', 'C', 'T']⟩, ⟨"B", none, ['A', 'C']⟩]⟩

/-- A concrete stored alignment for the cherry root: X = AACT consumed
fully, Y = AC consumed in the first two columns. -/
def witness_alignment : List Alignment :=
  [⟨[some 0, some 1, some 2, some 3], [some 0, some 1, none, none]⟩]

/-- Witness for C1 on the concrete cherry with the always-last RNG. -/
theorem C1_witness :
    (∀ idx k n : Nat, 0 < n → (fun _ _ n => n - 1 : Nat → Nat → Nat → Nat) idx k n < n) ∧
    witness_info.tree.postorder.Nodup ∧
    (∀ nd ∈ witness_info.tree.postorder, node_in_bounds witness_info.tree nd) ∧
    (∀ k < witness_info.tree.postorder.length,
      ∀ c ∈ node_children witness_info.tree
        (witness_info.tree.postorder.getD k (NodeIdx.Leaf 0)),
        c ∈ witness_info.tree.postorder.take k) ∧
    (∀ i < witness_info.tree.internals.length,
      NodeIdx.Internal i ∈ witness_info.tree.postorder) ∧
    (∀ i < witness_info.tree.internals.length,
      mapping_invariant
        ((pars_align_on_tree dna_alphabet (fun _ => ParsimonyCostsSimple 1 2 (1/2))
          witness_info (fun _ _ n => n - 1)).1.getD i Alignment.empty)
        (len_of witness_info
          (pars_align_on_tree dna_alphabet (fun _ => ParsimonyCostsSimple 1 2 (1/2))
            witness_info (fun _ _ n => n - 1)).1
          (witness_info.tree.internals.getD i default).children.1)
        (len_of witness_info
          (pars_align_on_tree dna_alphabet (fun _ => ParsimonyCostsSimple 1 2 (1/2))
            witness_info (fun _ _ n => n - 1)).1
          (witness_info.tree.internals.getD i default).children.2)) :=
  ⟨fun _ _ n hn => Nat.sub_lt hn Nat.one_pos, by decide, by decide, by decide, by decide,
    C1_pars_align_on_tree_mapping_invariant dna_alphabet
      (fun _ => ParsimonyCostsSimple 1 2 (1/2)) witness_info (fun _ _ n => n - 1)
      (fun _ _ n hn => Nat.sub_lt hn Nat.one_pos) (by decide) (by decide) (by decide)
      (by decide)⟩

/-- Reading a list of options back through `getD` over its index range
recovers its `Some` entries. -/
theorem filterMap_getD_range (m : List (Option Nat)) :
    (List.range m.length).filterMap (fun i => m.getD i none) = m.filterMap id := by
  induction m with
  | nil => simp
  | cons a m ih =>
    rw [List.length_cons, List.range_succ_eq_map, List.filterMap_cons, List.filterMap_map]
    have h2 : ((fun i => (a :: m).getD i none) ∘ Nat.succ) =
        fun i => m.getD i none := rfl
    rw [h2, ih]
    cases a <;> rfl

/-- Reading a list back through `getD` over its index range recovers the
list. -/
theorem map_getD_range {α : Type} (s : List α) (d : α) :
    (List.range s.length).map (fun i => s.getD i d) = s := by
  induction s with
  | nil => simp
  | cons a s ih =>
    rw [List.length_cons, List.range_succ_eq_map, List.map_cons, List.map_map]
    have h2 : ((fun i => (a :: s).getD i d) ∘ Nat.succ) = fun i => s.getD i d := rfl
    rw [h2, ih]
    rfl

/-- Padding a full-coverage stack through a mapping leaves exactly the
mapping's `Some` entries, in order. -/
theorem padded_map_covers (v m : List (Option Nat))
    (hv : v.filterMap id = List.range m.length) :
    (padded_map v m).filterMap id = m.filterMap id := by
  have h1 : padded_map v m = v.map fun s => s.bind fun i => m.getD i none := by
    unfold padded_map
    apply List.map_congr_left
    intro s _
    cases s <;> rfl
  rw [h1, List.filterMap_map]
  have h2 : (id ∘ fun s : Option Nat => s.bind fun i => m.getD i none) =
      fun s : Option Nat => (id s).bind fun i => m.getD i none := rfl
  rw [h2, ← List.filterMap_filterMap, hv, filterMap_getD_range]

/-- The padded stack keeps the parent's stack length. -/
theorem padded_map_length (v m : List (Option Nat)) :
    (padded_map v m).length = v.length := by
  simp [padded_map]

/-- Emitting a record from a stack and stripping the gap characters
leaves the residues of the consumed positions, in order. -/
theorem filter_strip (s : List Char) (hs : '-' ∉ s) (v : List (Option Nat))
    (hv : ∀ idx ∈ v.filterMap id, idx < s.length) :
    (v.map fun o =>
      match o with
      | some index => s.getD index '-'
      | none => '-').filter (fun c => decide (c ≠ '-')) =
    (v.filterMap id).map fun idx => s.getD idx '-' := by
  induction v with
  | nil => simp
  | cons o v ih =>
    have hv2 : ∀ idx ∈ v.filterMap id, idx < s.length := by
      intro idx hidx
      refine hv idx ?_
      cases o <;> simp [List.filterMap_cons, hidx]
    cases o with
    | none =>
      rw [List.map_cons, List.filter_cons, if_neg (by simp)]
      rw [List.filterMap_cons]
      exact ih hv2
    | some idx =>
      have hidx : idx < s.length := hv idx (by simp [List.filterMap_cons])
      have hchar : s.getD idx '-' ≠ '-' := by
        rw [List.getD_eq_getElem _ _ hidx]
        intro h
        exact hs (h ▸ List.getElem_mem hidx)
      rw [List.map_cons, List.filter_cons,
        if_pos (by simp only [ne_eq, decide_eq_true_eq,
          List.getD_eq_getElem?_getD] at hchar ⊢; exact hchar)]
      rw [List.filterMap_cons]
      show s.getD idx '-' :: _ = s.getD idx '-' :: _
      rw [ih hv2]

/-- `Forall₂` respects list concatenation. -/
theorem forall2_append {α β : Type} {R : α → β → Prop} {a2 : List α} {b2 : List β} :
    ∀ {a1 : List α} {b1 : List β}, List.Forall₂ R a1 b1 → List.Forall₂ R a2 b2 →
      List.Forall₂ R (a1 ++ a2) (b1 ++ b2) := by
  intro a1 b1 h1 h2
  induction h1 with
  | nil => exact h2
  | cons hab h ih => exact List.Forall₂.cons hab ih

/-- A left element of a `Forall₂` pair has a related right element. -/
theorem forall2_mem_left {α β : Type} {R : α → β → Prop} :
    ∀ {as : List α} {bs : List β}, List.Forall₂ R as bs →
      ∀ a ∈ as, ∃ b ∈ bs, R a b := by
  intro as bs h
  induction h with
  | nil => intro a ha; exact absurd ha (List.not_mem_nil a)
  | cons hab h ih =>
    intro a ha
    rcases List.mem_cons.mp ha with rfl | ha'
    · exact ⟨_, List.mem_cons_self _ _, hab⟩
    · obtain ⟨b, hb, hr⟩ := ih a ha'
      exact ⟨b, List.mem_cons_of_mem _ hb, hr⟩

/-- A right element of a `Forall₂` pair has a related left element. -/
theorem forall2_mem_right {α β : Type} {R : α → β → Prop} :
    ∀ {as : List α} {bs : List β}, List.Forall₂ R as bs →
      ∀ b ∈ bs, ∃ a ∈ as, R a b := by
  intro as bs h
  induction h with
  | nil => intro b hb; exact absurd hb (List.not_mem_nil b)
  | cons hab h ih =>
    intro b hb
    rcases List.mem_cons.mp hb with rfl | hb'
    · exact ⟨_, List.mem_cons_self _ _, hab⟩
    · obtain ⟨a, ha, hr⟩ := ih b hb'
      exact ⟨a, List.mem_cons_of_mem _ ha, hr⟩

/-- A key function inverting a `Forall₂` relation recovers the left
list from the right one. -/
theorem forall2_map_key {α β : Type} {R : α → β → Prop} (f : β → α) :
    ∀ {as : List α} {bs : List β}, List.Forall₂ R as bs →
      (∀ a ∈ as, ∀ b, R a b → f b = a) → List.map f bs = as := by
  intro as bs h
  induction h with
  | nil => intro _; rfl
  | cons hab h ih =>
    intro hf
    rw [List.map_cons, hf _ (List.mem_cons_self _ _) _ hab,
      ih (fun a ha b hr => hf a (List.mem_cons_of_mem _ ha) b hr)]

/-- A well-formed node is within the tree's array bounds. -/
theorem wfsub_bounds {tree : PhyloTree} {d : Nat} {n : NodeIdx}
    (h : WfSub tree d n) : node_in_bounds tree n := by
  cases h with
  | leaf d i hb => exact hb
  | internal d i hb h1 h2 => exact hb

/-- A node heads its own preorder list whenever the fuel covers its
depth. -/
theorem mem_preorder_self {tree : PhyloTree} {d : Nat} {n : NodeIdx}
    (h : WfSub tree d n) {f : Nat} (hf : d ≤ f) :
    n ∈ preorder_aux tree f n := by
  cases h with
  | leaf d i hb =>
    cases f with
    | zero => exact absurd hf (by omega)
    | succ f => exact List.mem_singleton_self _
  | internal d i hb h1 h2 =>
    cases f with
    | zero => exact absurd hf (by omega)
    | succ f => exact List.mem_cons_self _ _

/-- Every member of the preorder list of a well-formed subtree is
within the tree's array bounds. -/
theorem preorder_bounds {tree : PhyloTree} :
    ∀ {d : Nat} {n : NodeIdx}, WfSub tree d n → ∀ {f : Nat}, d ≤ f →
      ∀ m ∈ preorder_aux tree f n, node_in_bounds tree m := by
  intro d n h
  induction h with
  | leaf d i hb =>
    intro f hf m hm
    cases f with
    | zero => exact absurd hf (by omega)
    | succ f =>
      rw [List.mem_singleton.mp hm]
      exact hb
  | internal d i hb h1 h2 ih1 ih2 =>
    intro f hf m hm
    cases f with
    | zero => exact absurd hf (by omega)
    | succ f =>
      have hdf : d ≤ f := Nat.le_of_succ_le_succ hf
      rcases List.mem_cons.mp hm with rfl | hm'
      · exact hb
      · rcases List.mem_append.mp hm' with hml | hmr
        · exact ih1 hdf m hml
        · exact ih2 hdf m hmr

/-- The flat stack position is injective on in-bounds nodes. -/
theorem node_pos_inj {tree : PhyloTree} {a b : NodeIdx}
    (ha : node_in_bounds tree a) (hb : node_in_bounds tree b)
    (h : node_pos tree a = node_pos tree b) : a = b := by
  cases a with
  | Internal i =>
    cases b with
    | Internal j =>
      have : i = j := h
      rw [this]
    | Leaf j =>
      exfalso
      have hi : i < tree.internals.length := ha
      have hh : i = tree.internals.length + j := h
      omega
  | Leaf i =>
    cases b with
    | Internal j =>
      exfalso
      have hj : j < tree.internals.length := hb
      have hh : tree.internals.length + i = j := h
      omega
    | Leaf j =>
      have hh : tree.internals.length + i = tree.internals.length + j := h
      have : i = j := by omega
      rw [this]

/-- The flat stack position of an in-bounds node is within the total
stack length. -/
theorem node_pos_lt {tree : PhyloTree} {n : NodeIdx} (h : node_in_bounds tree n) :
    node_pos tree n < tree.internals.length + tree.leaves.length := by
  cases n with
  | Internal i =>
    have hi : i < tree.internals.length := h
    show i < _
    omega
  | Leaf i =>
    have hi : i < tree.leaves.length := h
    show tree.internals.length + i < _
    omega

/-- A found index satisfies the search predicate. -/
theorem findIdx?_getD_pred {α : Type} (p : α → Bool) :
    ∀ (l : List α) (j : Nat), List.findIdx? p l = some j →
      ∀ d : α, p (l.getD j d) = true := by
  intro l
  induction l with
  | nil =>
    intro j h d
    exact absurd h (by rw [List.findIdx?_nil]; exact Option.noConfusion)
  | cons a rest ih =>
    intro j h d
    rw [List.findIdx?_cons] at h
    by_cases hpa : p a = true
    · rw [if_pos hpa] at h
      injection h with h
      rw [← h]
      exact hpa
    · rw [if_neg hpa, List.findIdx?_succ] at h
      cases hf : List.findIdx? p rest with
      | none => rw [hf] at h; exact absurd h (by exact Option.noConfusion)
      | some j' =>
        rw [hf] at h
        injection h with h
        rw [← h]
        exact ih j' hf d

/-- On a list with pairwise-distinct ids, the id search finds exactly
the queried position. -/
theorem findIdx_id_nodup :
    ∀ (sequences : List Record), (sequences.map Record.id).Nodup →
    ∀ l, l < sequences.length →
      sequences.findIdx? (fun r' => r'.id == (sequences.getD l default).id) = some l := by
  intro sequences
  induction sequences with
  | nil =>
    intro _ l hl
    exact absurd hl (Nat.not_lt_zero l)
  | cons a rest ih =>
    intro hnd l hl
    rw [List.map_cons, List.nodup_cons] at hnd
    obtain ⟨hna, hnrest⟩ := hnd
    cases l with
    | zero =>
      rw [show ((a :: rest).getD 0 default) = a from rfl, List.findIdx?_cons,
        if_pos (show (a.id == a.id) = true from beq_self_eq_true a.id)]
    | succ l =>
      have hl' : l < rest.length := Nat.lt_of_succ_lt_succ hl
      rw [show ((a :: rest).getD (l + 1) default) = rest.getD l default from rfl,
        List.findIdx?_cons]
      have hpa : (a.id == (rest.getD l default).id) = false := by
        rw [beq_eq_false_iff_ne]
        intro heq
        apply hna
        rw [heq]
        refine List.mem_map_of_mem Record.id ?_
        rw [List.getD_eq_getElem _ _ hl']
        exact List.getElem_mem hl'
      rw [if_neg (show ¬((a.id == (rest.getD l default).id) = true) from by
          rw [hpa]; exact Bool.false_ne_true),
        List.findIdx?_succ, ih hnrest l hl']
      rfl

/-- A record whose lookup index is in range carries the id stored at
that index. -/
theorem sequence_idx_id (sequences : List Record) (r : Record)
    (h : sequence_idx sequences r < sequences.length) :
    (sequences.getD (sequence_idx sequences r) default).id = r.id := by
  unfold sequence_idx at h ⊢
  cases hf : sequences.findIdx? (fun r' => r'.id == r.id) with
  | none =>
    rw [hf, Option.getD_none] at h
    exact absurd h (lt_irrefl _)
  | some j =>
    exact eq_of_beq (findIdx?_getD_pred _ sequences j hf default)

/-- With pairwise-distinct ids, a record carrying the id stored at an
in-range position looks up to exactly that position. -/
theorem sequence_idx_eq (sequences : List Record)
    (hids : (sequences.map Record.id).Nodup) (l : Nat)
    (hl : l < sequences.length) (r : Record)
    (hid : r.id = (sequences.getD l default).id) :
    sequence_idx sequences r = l := by
  unfold sequence_idx
  rw [show (fun r' : Record => r'.id == r.id) =
      (fun r' : Record => r'.id == (sequences.getD l default).id) from by
    funext r'
    rw [hid]]
  rw [findIdx_id_nodup sequences hids l hl]
  rfl

/-- The compositor fold over the preorder list of a well-formed
subtree: starting from a stack whose slot for the subtree root covers
exactly the root's profile positions, it appends one record per subtree
leaf (in preorder), each satisfying the per-leaf output contract at the
ambient padded length; the stack length is preserved and slots outside
the subtree are untouched. -/
theorem compile_fold_spec (info : PhyloInfo) (alignment : List Alignment)
    (hseqlen : info.tree.leaves.length ≤ info.sequences.length)
    (hseq : ∀ r ∈ info.sequences, '-' ∉ r.seq)
    (hmap : ∀ i < info.tree.internals.length,
      mapping_invariant (alignment.getD i Alignment.empty)
        (len_of info alignment (info.tree.internals.getD i default).children.1)
        (len_of info alignment (info.tree.internals.getD i default).children.2)) :
    ∀ {d : Nat} {n : NodeIdx}, WfSub info.tree d n →
    ∀ (fuel : Nat), d ≤ fuel → (preorder_aux info.tree fuel n).Nodup →
    ∀ (st : AlState) (v : List (Option Nat)),
      st.stack.length = info.tree.internals.length + info.tree.leaves.length →
      st.stack.getD (node_pos info.tree n) [] = v →
      v.filterMap id = List.range (len_of info alignment n) →
      ∃ L : List Record,
        ((preorder_aux info.tree fuel n).foldl
            (compile_step info.tree info.sequences alignment) st).msa = st.msa ++ L ∧
        List.Forall₂ (LeafRec info.sequences v.length)
          (subtree_leaves info.tree fuel n) L ∧
        ((preorder_aux info.tree fuel n).foldl
            (compile_step info.tree info.sequences alignment) st).stack.length
          = st.stack.length ∧
        ∀ p : Nat, (∀ m ∈ preorder_aux info.tree fuel n, p ≠ node_pos info.tree m) →
          ((preorder_aux info.tree fuel n).foldl
              (compile_step info.tree info.sequences alignment) st).stack.getD p []
            = st.stack.getD p [] := by
  intro d n hwf
  induction hwf with
  | leaf d i hb =>
    intro fuel hf hnd st v hstN hst hv
    cases fuel with
    | zero => exact absurd hf (by omega)
    | succ f =>
    subst hst
    have hv' : (st.stack.getD (info.tree.internals.length + i) []).filterMap id =
        List.range ((info.sequences.getD i default).seq.length) := hv
    have hi2 : i < info.sequences.length := lt_of_lt_of_le hb hseqlen
    have hs : '-' ∉ (info.sequences.getD i default).seq := by
      apply hseq
      rw [List.getD_eq_getElem _ _ hi2]
      exact List.getElem_mem hi2
    have hbnd : ∀ idx ∈ (st.stack.getD (info.tree.internals.length + i) []).filterMap id,
        idx < (info.sequences.getD i default).seq.length := by
      intro idx hidx
      rw [hv'] at hidx
      exact List.mem_range.mp hidx
    refine ⟨_, rfl, ?_, rfl, fun p _ => rfl⟩
    refine List.Forall₂.cons ⟨rfl, rfl, ?_, ?_⟩ List.Forall₂.nil
    · exact List.length_map _ _
    · rw [filter_strip _ hs _ hbnd, hv', map_getD_range]
  | internal d i hb h1 h2 ih1 ih2 =>
    intro fuel hf hnd st v hstN hst hv
    cases fuel with
    | zero => exact absurd hf (by omega)
    | succ f =>
    have hdf : d ≤ f := Nat.le_of_succ_le_succ hf
    have hord : preorder_aux info.tree (f + 1) (NodeIdx.Internal i) =
        NodeIdx.Internal i ::
          (preorder_aux info.tree f (info.tree.internals.getD i default).children.1 ++
            preorder_aux info.tree f (info.tree.internals.getD i default).children.2) := rfl
    rw [hord] at hnd
    rw [List.nodup_cons, List.nodup_append] at hnd
    obtain ⟨hni, hnl, hnr, hdisj⟩ := hnd
    have hst' : st.stack.getD i [] = v := hst
    have hstep : compile_step info.tree info.sequences alignment st (NodeIdx.Internal i) =
        { st with stack := step_stack info.tree alignment st i v } := by
      simp only [compile_step, step_stack]
      rw [hst']
    have hb1 := wfsub_bounds h1
    have hb2 := wfsub_bounds h2
    have hp1 : node_pos info.tree (info.tree.internals.getD i default).children.1 <
        st.stack.length := by
      rw [hstN]
      exact node_pos_lt hb1
    have hp2 : node_pos info.tree (info.tree.internals.getD i default).children.2 <
        st.stack.length := by
      rw [hstN]
      exact node_pos_lt hb2
    have hm1 : (info.tree.internals.getD i default).children.1 ∈
        preorder_aux info.tree f (info.tree.internals.getD i default).children.1 :=
      mem_preorder_self h1 hdf
    have hm2 : (info.tree.internals.getD i default).children.2 ∈
        preorder_aux info.tree f (info.tree.internals.getD i default).children.2 :=
      mem_preorder_self h2 hdf
    have hcne : node_pos info.tree (info.tree.internals.getD i default).children.1 ≠
        node_pos info.tree (info.tree.internals.getD i default).children.2 := by
      intro he
      have hceq := node_pos_inj hb1 hb2 he
      exact hdisj hm1 (by rw [hceq]; exact hm2)
    have hget1 : (step_stack info.tree alignment st i v).getD
        (node_pos info.tree (info.tree.internals.getD i default).children.1) [] =
        padded_map v (alignment.getD i Alignment.empty).map_x := by
      unfold step_stack
      rw [getD_set_ne _ _ _ _ _ (Ne.symm hcne), getD_set_self _ _ _ _ hp1]
    have hget2 : (step_stack info.tree alignment st i v).getD
        (node_pos info.tree (info.tree.internals.getD i default).children.2) [] =
        padded_map v (alignment.getD i Alignment.empty).map_y := by
      unfold step_stack
      apply getD_set_self
      rw [List.length_set]
      exact hp2
    have hv' : v.filterMap id =
        List.range ((alignment.getD i Alignment.empty).map_x.length) := hv
    have hvx : (padded_map v (alignment.getD i Alignment.empty).map_x).filterMap id =
        List.range (len_of info alignment
          (info.tree.internals.getD i default).children.1) := by
      rw [padded_map_covers v _ hv']
      exact (hmap i hb).2.2.1
    have hv'' : v.filterMap id =
        List.range ((alignment.getD i Alignment.empty).map_y.length) := by
      rw [hv']
      rw [(hmap i hb).1]
    have hvy : (padded_map v (alignment.getD i Alignment.empty).map_y).filterMap id =
        List.range (len_of info alignment
          (info.tree.internals.getD i default).children.2) := by
      rw [padded_map_covers v _ hv'']
      exact (hmap i hb).2.2.2
    obtain ⟨L1, hmsa1, hfa1, hlen1, hfr1⟩ := ih1 f hdf hnl
      { st with stack := step_stack info.tree alignment st i v }
      (padded_map v (alignment.getD i Alignment.empty).map_x)
      (by simp only [step_stack, List.length_set]; exact hstN) hget1 hvx
    have hfr1p2 : (List.foldl (compile_step info.tree info.sequences alignment)
        { st with stack := step_stack info.tree alignment st i v }
        (preorder_aux info.tree f
          (info.tree.internals.getD i default).children.1)).stack.getD
        (node_pos info.tree (info.tree.internals.getD i default).children.2) [] =
        padded_map v (alignment.getD i Alignment.empty).map_y := by
      rw [hfr1 _ ?_]
      · exact hget2
      · intro m hm heq
        have hbm := preorder_bounds h1 hdf m hm
        have hceq := node_pos_inj hb2 hbm heq
        exact hdisj (by rw [hceq]; exact hm) hm2
    obtain ⟨L2, hmsa2, hfa2, hlen2, hfr2⟩ := ih2 f hdf hnr
      (List.foldl (compile_step info.tree info.sequences alignment)
        { st with stack := step_stack info.tree alignment st i v }
        (preorder_aux info.tree f (info.tree.internals.getD i default).children.1))
      (padded_map v (alignment.getD i Alignment.empty).map_y)
      (by rw [hlen1]; simp only [step_stack, List.length_set]; exact hstN) hfr1p2 hvy
    have hfm : subtree_leaves info.tree (f + 1) (NodeIdx.Internal i) =
        subtree_leaves info.tree f (info.tree.internals.getD i default).children.1 ++
        subtree_leaves info.tree f (info.tree.internals.getD i default).children.2 := by
      simp only [subtree_leaves, hord]
      rw [List.filterMap_cons_none rfl, List.filterMap_append]
    rw [hord, List.foldl_cons, List.foldl_append, hstep, hfm]
    refine ⟨L1 ++ L2, ?_, ?_, ?_, ?_⟩
    · rw [hmsa2, hmsa1]
      exact List.append_assoc _ _ _
    · rw [padded_map_length] at hfa1 hfa2
      exact forall2_append hfa1 hfa2
    · rw [hlen2, hlen1]
      simp only [step_stack, List.length_set]
    · intro p hp
      have hpc1 : p ≠ node_pos info.tree (info.tree.internals.getD i default).children.1 :=
        hp _ (List.mem_cons_of_mem _ (List.mem_append_left _ hm1))
      have hpc2 : p ≠ node_pos info.tree (info.tree.internals.getD i default).children.2 :=
        hp _ (List.mem_cons_of_mem _ (List.mem_append_right _ hm2))
      rw [hfr2 p ?_, hfr1 p ?_]
      · show (step_stack info.tree alignment st i v).getD p [] = st.stack.getD p []
        unfold step_stack
        rw [getD_set_ne _ _ _ _ _ (Ne.symm hpc2), getD_set_ne _ _ _ _ _ (Ne.symm hpc1)]
      · intro m hm
        exact hp m (List.mem_cons_of_mem _ (List.mem_append_left _ hm))
      · intro m hm
        exact hp m (List.mem_cons_of_mem _ (List.mem_append_right _ hm))

/-- `compile_alignment_representation` on an internal subroot: the
emitted records are the per-leaf contract instances of the subtree, in
preorder, sorted stably by input position. -/
theorem compile_repr_forall2 (info : PhyloInfo) (alignment : List Alignment)
    (subroot : Option NodeIdx) (idx : Nat)
    (hsub : subroot.getD info.tree.root = NodeIdx.Internal idx)
    {d : Nat} (hwf : WfSub info.tree d (NodeIdx.Internal idx))
    (hd : d ≤ info.tree.internals.length + 1)
    (hnodup : (preorder_subroot info.tree (NodeIdx.Internal idx)).Nodup)
    (hseqlen : info.tree.leaves.length ≤ info.sequences.length)
    (hseq : ∀ r ∈ info.sequences, '-' ∉ r.seq)
    (hmap : ∀ i < info.tree.internals.length,
      mapping_invariant (alignment.getD i Alignment.empty)
        (len_of info alignment (info.tree.internals.getD i default).children.1)
        (len_of info alignment (info.tree.internals.getD i default).children.2)) :
    ∃ L : List Record,
      List.Forall₂ (LeafRec info.sequences
          (alignment.getD idx Alignment.empty).map_x.length)
        (subtree_leaves info.tree (info.tree.internals.length + 1)
          (NodeIdx.Internal idx)) L ∧
      compile_alignment_representation info alignment subroot =
        L.mergeSort fun a b =>
          decide (sequence_idx info.sequences a ≤ sequence_idx info.sequences b) := by
  have hidx : idx < info.tree.internals.length := wfsub_bounds hwf
  have hlen0 : (init_stack info.tree alignment idx).length =
      info.tree.internals.length + info.tree.leaves.length := by
    simp [init_stack]
  have hget0 : (init_stack info.tree alignment idx).getD
      (node_pos info.tree (NodeIdx.Internal idx)) [] =
      (List.range (alignment.getD idx Alignment.empty).map_x.length).map some := by
    show (init_stack info.tree alignment idx).getD idx [] = _
    unfold init_stack
    apply getD_set_self
    rw [List.length_replicate]
    omega
  have hcov0 : ((List.range (alignment.getD idx Alignment.empty).map_x.length).map
      some).filterMap id = List.range (len_of info alignment (NodeIdx.Internal idx)) := by
    show _ = List.range ((alignment.getD idx Alignment.empty).map_x.length)
    simp
  obtain ⟨L, hmsa, hfa, _, _⟩ := compile_fold_spec info alignment hseqlen hseq hmap hwf
    (info.tree.internals.length + 1) hd hnodup
    ⟨init_stack info.tree alignment idx, ([] : List Record)⟩ _ hlen0 hget0 hcov0
  refine ⟨L, ?_, ?_⟩
  · rw [List.length_map, List.length_range] at hfa
    exact hfa
  · have hmsa' : ((preorder_subroot info.tree (NodeIdx.Internal idx)).foldl
        (compile_step info.tree info.sequences alignment)
        ⟨init_stack info.tree alignment idx, ([] : List Record)⟩).msa = [] ++ L := hmsa
    unfold compile_alignment_representation
    simp only [hsub]
    rw [hmsa', List.nil_append]

/-- C2: for every tree and alignment vector whose per-internal-node
mappings satisfy the mapping invariant against the child profile
lengths, and gap-free input sequences, every leaf of the compiled
subtree has an output record carrying its id whose sequence, with every
gap character removed, is exactly that leaf's original input
sequence. -/
theorem C2_compile_strip_gaps (info : PhyloInfo) (alignment : List Alignment)
    (subroot : Option NodeIdx) {d : Nat}
    (hwf : WfSub info.tree d (subroot.getD info.tree.root))
    (hd : d ≤ info.tree.internals.length + 1)
    (hnodup : (preorder_subroot info.tree (subroot.getD info.tree.root)).Nodup)
    (hseqlen : info.tree.leaves.length ≤ info.sequences.length)
    (hseq : ∀ r ∈ info.sequences, '-' ∉ r.seq)
    (hmap : ∀ i < info.tree.internals.length,
      mapping_invariant (alignment.getD i Alignment.empty)
        (len_of info alignment (info.tree.internals.getD i default).children.1)
        (len_of info alignment (info.tree.internals.getD i default).children.2)) :
    ∀ l ∈ subtree_leaves info.tree (info.tree.internals.length + 1)
        (subroot.getD info.tree.root),
      ∃ r ∈ compile_alignment_representation info alignment subroot,
        r.id = (info.sequences.getD l default).id ∧
        r.seq.filter (fun c => decide (c ≠ '-')) =
          (info.sequences.getD l default).seq := by
  intro l hl
  cases hsub : subroot.getD info.tree.root with
  | Leaf i =>
    rw [hsub] at hl hwf
    have hli : l = i := by
      rw [show subtree_leaves info.tree (info.tree.internals.length + 1)
          (NodeIdx.Leaf i) = [i] from rfl] at hl
      exact List.mem_singleton.mp hl
    subst hli
    have hout : compile_alignment_representation info alignment subroot =
        [info.sequences.getD l default] := by
      unfold compile_alignment_representation
      simp only [hsub]
    have hbound : l < info.tree.leaves.length := wfsub_bounds hwf
    have hi2 : l < info.sequences.length := lt_of_lt_of_le hbound hseqlen
    have hs : '-' ∉ (info.sequences.getD l default).seq := by
      apply hseq
      rw [List.getD_eq_getElem _ _ hi2]
      exact List.getElem_mem hi2
    refine ⟨info.sequences.getD l default, by
      rw [hout]; exact List.mem_singleton_self _, rfl, ?_⟩
    refine List.filter_eq_self.mpr ?_
    intro a ha
    exact decide_eq_true (fun h => hs (h ▸ ha))
  | Internal idx =>
    rw [hsub] at hl hwf hnodup
    obtain ⟨L, hfa, hout⟩ := compile_repr_forall2 info alignment subroot idx hsub hwf
      hd hnodup hseqlen hseq hmap
    obtain ⟨r, hrL, hR⟩ := forall2_mem_left hfa l hl
    refine ⟨r, ?_, hR.1, hR.2.2.2⟩
    rw [hout]
    exact ((List.mergeSort_perm L _).mem_iff).mpr hrL

/-- C6: for every tree and alignment vector whose mappings satisfy the
mapping invariant, with the subtree leaves covering the input sequences
and pairwise-distinct ids, every record produced by
`compile_alignment_representation` from the (internal) root has the
same length, equal to the root profile length — the root node's `map_x`
length — and the output ids are exactly the input ids in the original
input FASTA order. -/
theorem C6_output_length_and_order (info : PhyloInfo) (alignment : List Alignment)
    (rootidx : Nat) (hroot : info.tree.root = NodeIdx.Internal rootidx)
    {d : Nat} (hwf : WfSub info.tree d (NodeIdx.Internal rootidx))
    (hd : d ≤ info.tree.internals.length + 1)
    (hnodup : (preorder_subroot info.tree (NodeIdx.Internal rootidx)).Nodup)
    (hseqlen : info.tree.leaves.length ≤ info.sequences.length)
    (hseq : ∀ r ∈ info.sequences, '-' ∉ r.seq)
    (hids : (info.sequences.map Record.id).Nodup)
    (hper : (subtree_leaves info.tree (info.tree.internals.length + 1)
        (NodeIdx.Internal rootidx)).Perm (List.range info.sequences.length))
    (hmap : ∀ i < info.tree.internals.length,
      mapping_invariant (alignment.getD i Alignment.empty)
        (len_of info alignment (info.tree.internals.getD i default).children.1)
        (len_of info alignment (info.tree.internals.getD i default).children.2)) :
    (∀ r ∈ compile_alignment_representation info alignment none,
      r.seq.length = (alignment.getD rootidx Alignment.empty).map_x.length) ∧
    (compile_alignment_representation info alignment none).map Record.id =
      info.sequences.map Record.id := by
  have hsub : (none : Option NodeIdx).getD info.tree.root = NodeIdx.Internal rootidx := by
    rw [Option.getD_none]
    exact hroot
  obtain ⟨L, hfa, hout⟩ := compile_repr_forall2 info alignment none rootidx hsub hwf
    hd hnodup hseqlen hseq hmap
  constructor
  · intro r hr
    rw [hout] at hr
    have hrL : r ∈ L := ((List.mergeSort_perm L _).mem_iff).mp hr
    obtain ⟨l, _, hR⟩ := forall2_mem_right hfa r hrL
    exact hR.2.2.1
  · rw [hout]
    have hkeyL : L.map (sequence_idx info.sequences) =
        subtree_leaves info.tree (info.tree.internals.length + 1)
          (NodeIdx.Internal rootidx) := by
      refine forall2_map_key _ hfa ?_
      intro l hlmem r hR
      have hln : l < info.sequences.length :=
        List.mem_range.mp (hper.mem_iff.mp hlmem)
      exact sequence_idx_eq info.sequences hids l hln r hR.1
    have htrans : ∀ a b c : Record,
        (fun a b => decide (sequence_idx info.sequences a ≤
          sequence_idx info.sequences b)) a b = true →
        (fun a b => decide (sequence_idx info.sequences a ≤
          sequence_idx info.sequences b)) b c = true →
        (fun a b => decide (sequence_idx info.sequences a ≤
          sequence_idx info.sequences b)) a c = true := by
      intro a b c hab hbc
      exact decide_eq_true (le_trans (of_decide_eq_true hab) (of_decide_eq_true hbc))
    have htotal : ∀ a b : Record,
        ((fun a b => decide (sequence_idx info.sequences a ≤
          sequence_idx info.sequences b)) a b ||
        (fun a b => decide (sequence_idx info.sequences a ≤
          sequence_idx info.sequences b)) b a) = true := by
      intro a b
      show (decide (sequence_idx info.sequences a ≤ sequence_idx info.sequences b) ||
        decide (sequence_idx info.sequences b ≤ sequence_idx info.sequences a)) = true
      rcases le_total (sequence_idx info.sequences a) (sequence_idx info.sequences b) with
        h | h
      · rw [decide_eq_true h, Bool.true_or]
      · rw [decide_eq_true h, Bool.or_true]
    have hpair : List.Pairwise (fun a b : Record =>
        sequence_idx info.sequences a ≤ sequence_idx info.sequences b)
        (L.mergeSort fun a b => decide (sequence_idx info.sequences a ≤
          sequence_idx info.sequences b)) :=
      List.Pairwise.imp (fun h => of_decide_eq_true h)
        (List.sorted_mergeSort htrans htotal L)
    have hkeysorted : List.Sorted (· ≤ ·)
        ((L.mergeSort fun a b => decide (sequence_idx info.sequences a ≤
          sequence_idx info.sequences b)).map (sequence_idx info.sequences)) :=
      List.pairwise_map.mpr hpair
    have hperm2 : (((L.mergeSort fun a b => decide (sequence_idx info.sequences a ≤
        sequence_idx info.sequences b)).map (sequence_idx info.sequences))).Perm
        (List.range info.sequences.length) := by
      have p1 := (List.mergeSort_perm L (fun a b =>
        decide (sequence_idx info.sequences a ≤
          sequence_idx info.sequences b))).map (sequence_idx info.sequences)
      rw [hkeyL] at p1
      exact p1.trans hper
    have hrs : List.Sorted (· ≤ ·) (List.range info.sequences.length) :=
      List.Pairwise.imp (fun h => le_of_lt h) (List.pairwise_lt_range _)
    have hkeys : ((L.mergeSort fun a b => decide (sequence_idx info.sequences a ≤
        sequence_idx info.sequences b)).map (sequence_idx info.sequences)) =
        List.range info.sequences.length :=
      List.eq_of_perm_of_sorted hperm2 hkeysorted hrs
    have hmem : ∀ r ∈ (L.mergeSort fun a b => decide (sequence_idx info.sequences a ≤
        sequence_idx info.sequences b)),
        sequence_idx info.sequences r < info.sequences.length := by
      intro r hr
      have hmm : sequence_idx info.sequences r ∈
          ((L.mergeSort fun a b => decide (sequence_idx info.sequences a ≤
            sequence_idx info.sequences b)).map (sequence_idx info.sequences)) :=
        List.mem_map_of_mem _ hr
      rw [hkeys] at hmm
      exact List.mem_range.mp hmm
    have e1 : (L.mergeSort fun a b => decide (sequence_idx info.sequences a ≤
        sequence_idx info.sequences b)).map Record.id =
        (L.mergeSort fun a b => decide (sequence_idx info.sequences a ≤
          sequence_idx info.sequences b)).map
          (fun r => (info.sequences.getD (sequence_idx info.sequences r) default).id) :=
      List.map_congr_left (fun r hr => (sequence_idx_id info.sequences r (hmem r hr)).symm)
    have e2 : (L.mergeSort fun a b => decide (sequence_idx info.sequences a ≤
        sequence_idx info.sequences b)).map
        (fun r => (info.sequences.getD (sequence_idx info.sequences r) default).id) =
        ((L.mergeSort fun a b => decide (sequence_idx info.sequences a ≤
          sequence_idx info.sequences b)).map (sequence_idx info.sequences)).map
          (fun k => (info.sequences.getD k default).id) :=
      (List.map_map (fun k => (info.sequences.getD k default).id)
        (sequence_idx info.sequences) _).symm
    rw [e1, e2, hkeys]
    exact (List.map_map _ _ _).symm.trans (by rw [map_getD_range])

/-- Witness for C2 on the concrete cherry with a concrete stored
alignment satisfying the mapping invariant. -/
theorem C2_witness :
    WfSub witness_info.tree 2 ((none : Option NodeIdx).getD witness_info.tree.root) ∧
    2 ≤ witness_info.tree.internals.length + 1 ∧
    (preorder_subroot witness_info.tree
      ((none : Option NodeIdx).getD witness_info.tree.root)).Nodup ∧
    witness_info.tree.leaves.length ≤ witness_info.sequences.length ∧
    (∀ r ∈ witness_info.sequences, '-' ∉ r.seq) ∧
    (∀ i < witness_info.tree.internals.length,
      mapping_invariant (witness_alignment.getD i Alignment.empty)
        (len_of witness_info witness_alignment
          (witness_info.tree.internals.getD i default).children.1)
        (len_of witness_info witness_alignment
          (witness_info.tree.internals.getD i default).children.2)) ∧
    ∀ l ∈ subtree_leaves witness_info.tree (witness_info.tree.internals.length + 1)
        ((none : Option NodeIdx).getD witness_info.tree.root),
      ∃ r ∈ compile_alignment_representation witness_info witness_alignment none,
        r.id = (witness_info.sequences.getD l default).id ∧
        r.seq.filter (fun c => decide (c ≠ '-')) =
          (witness_info.sequences.getD l default).seq := by
  have hwf : WfSub witness_info.tree 2
      ((none : Option NodeIdx).getD witness_info.tree.root) :=
    WfSub.internal 1 0 (by decide) (WfSub.leaf 0 0 (by decide))
      (WfSub.leaf 0 1 (by decide))
  have hmap : ∀ i < witness_info.tree.internals.length,
      mapping_invariant (witness_alignment.getD i Alignment.empty)
        (len_of witness_info witness_alignment
          (witness_info.tree.internals.getD i default).children.1)
        (len_of witness_info witness_alignment
          (witness_info.tree.internals.getD i default).children.2) := by
    intro i hi
    have hi0 : i = 0 := Nat.lt_one_iff.mp hi
    subst hi0
    unfold mapping_invariant covers_exactly
    exact ⟨by decide, by decide, by decide, by decide⟩
  exact ⟨hwf, by decide, by decide, by decide, by decide, hmap,
    C2_compile_strip_gaps witness_info witness_alignment none hwf (by decide)
      (by decide) (by decide) (by decide) hmap⟩

/-- Witness for C6 on the concrete cherry with a concrete stored
alignment satisfying the mapping invariant. -/
theorem C6_witness :
    witness_info.tree.root = NodeIdx.Internal 0 ∧
    WfSub witness_info.tree 2 (NodeIdx.Internal 0) ∧
    2 ≤ witness_info.tree.internals.length + 1 ∧
    (preorder_subroot witness_info.tree (NodeIdx.Internal 0)).Nodup ∧
    witness_info.tree.leaves.length ≤ witness_info.sequences.length ∧
    (∀ r ∈ witness_info.sequences, '-' ∉ r.seq) ∧
    (witness_info.sequences.map Record.id).Nodup ∧
    (subtree_leaves witness_info.tree (witness_info.tree.internals.length + 1)
      (NodeIdx.Internal 0)).Perm (List.range witness_info.sequences.length) ∧
    (∀ i < witness_info.tree.internals.length,
      mapping_invariant (witness_alignment.getD i Alignment.empty)
        (len_of witness_info witness_alignment
          (witness_info.tree.internals.getD i default).children.1)
        (len_of witness_info witness_alignment
          (witness_info.tree.internals.getD i default).children.2)) ∧
    (∀ r ∈ compile_alignment_representation witness_info witness_alignment none,
      r.seq.length = (witness_alignment.getD 0 Alignment.empty).map_x.length) ∧
    (compile_alignment_representation witness_info witness_alignment none).map Record.id =
      witness_info.sequences.map Record.id := by
  have hwf : WfSub witness_info.tree 2 (NodeIdx.Internal 0) :=
    WfSub.internal 1 0 (by decide) (WfSub.leaf 0 0 (by decide))
      (WfSub.leaf 0 1 (by decide))
  have hmap : ∀ i < witness_info.tree.internals.length,
      mapping_invariant (witness_alignment.getD i Alignment.empty)
        (len_of witness_info witness_alignment
          (witness_info.tree.internals.getD i default).children.1)
        (len_of witness_info witness_alignment
          (witness_info.tree.internals.getD i default).children.2) := by
    intro i hi
    have hi0 : i = 0 := Nat.lt_one_iff.mp hi
    subst hi0
    unfold mapping_invariant covers_exactly
    exact ⟨by decide, by decide, by decide, by decide⟩
  have hmain := C6_output_length_and_order witness_info witness_alignment 0 rfl hwf
    (by decide) (by decide) (by decide) (by decide) (by decide) (by decide) hmap
  exact ⟨rfl, hwf, by decide, by decide, by decide, by decide, by decide, by decide,
    hmap, hmain.1, hmain.2⟩

end IndelMaP
